import Mathlib

/-!
Verification of the ceph orchestrator core (mgr/orchestrator.py,
mgr/cephadm/module.py, mgr/ssh/module.py) against its specification.

The development shallowly embeds the relevant program fragments:

* the `_Promise`/`Completion` chain engine of `orchestrator.py`
  (`then`, `finalize`, `fail`, `result`, `exception`, ...);
* the `OutdatableData` staleness cache of `orchestrator.py`
  (`outdated`, `invalidate`);
* the host registry / cache key-set maintenance of
  `CephadmOrchestrator.__init__`, `add_host`, `remove_host`;
* `upgrade_start` / `_save_upgrade_state`;
* the reconciliation logic `_update_service`, `update_mons`,
  `_update_mgrs`, including the remote calls they issue;
* `get_unique_name` and the `_add_mds` batch naming loop;
* `_run_cephadm` error surfacing.

Python dictionaries become association lists, `datetime` values become
integers (seconds since the epoch), random choices become an explicit
supply of choices, and remote execution becomes an explicit trace of
issued calls.  Exceptions raised by the Python code are modelled with
`Except` or with explicit error results.
-/

set_option autoImplicit false

namespace CephOrch

/-! ## Values flowing through promise chains

`_Promise.NO_RESULT` is a distinguished sentinel; chain values in the
claims are strings or integers.  `fail` stores the literal string
`'exception'` into `_value`, which `Val.s "exception"` represents. -/

inductive Val : Type where
  | noRes : Val
  | n : Nat → Val
  | s : String → Val
deriving DecidableEq, Repr

/-- `_Promise._state`: `INITIALIZED = 1`, `FINISHED = 2`. -/
inductive PState : Type where
  | initialized : PState
  | finished : PState
deriving DecidableEq, Repr

/-- Continuations passed to `_Promise.then` / stored in `_on_complete`.
A continuation either computes a plain value (possibly raising), or
returns a fresh secondary promise chain (`subChain`, nonempty: a head
node plus further nodes), which `finalize` splices into the parent
chain.  This is a first-order language of continuations; `runCont`
gives each constructor its meaning. -/
inductive Cont : Type where
  | mapAddN : Nat → Cont
  | mapConstN : Nat → Cont
  | mapConstS : String → Cont
  | raiseE : String → Cont
  | subChain : Option Cont → List (Option Cont) → Cont
deriving Repr

/-- One `_Promise` node: `_on_complete`, `_value`, `_state`,
`_exception`.  A chain (`_next_promise` links) is a `List PNode`, head
first; `_first_promise` is the head of the list and needs no
representation. -/
structure PNode : Type where
  onComplete : Option Cont
  value : Val
  state : PState
  exc : Option String
deriving Repr

/-- A freshly constructed `_Promise(on_complete=oc)`:
value `NO_RESULT`, state `INITIALIZED`, no exception. -/
def mkFresh (oc : Option Cont) : PNode :=
  { onComplete := oc, value := Val.noRes, state := PState.initialized, exc := none }

/-- Result of invoking a continuation: a plain value, a raised
exception, or a (nonempty) secondary chain. -/
inductive CRes : Type where
  | value : Val → CRes
  | raised : String → CRes
  | chain : PNode → List PNode → CRes
deriving Repr

/-- Invoke a continuation on the current `_value`. -/
def runCont : Cont → Val → CRes
  | Cont.mapAddN k, Val.n m => CRes.value (Val.n (m + k))
  | Cont.mapAddN _, _ => CRes.raised "TypeError"
  | Cont.mapConstN k, _ => CRes.value (Val.n k)
  | Cont.mapConstS str, _ => CRes.value (Val.s str)
  | Cont.raiseE e, _ => CRes.raised e
  | Cont.subChain h t, _ => CRes.chain (mkFresh h) (t.map mkFresh)

/-! Size functions used only to justify termination of `finalizeGo`:
each `finalize` step consumes one node, and a spliced secondary chain
is strictly smaller than the continuation that returned it. -/

mutual

def contSize : Cont → Nat
  | Cont.mapAddN _ => 1
  | Cont.mapConstN _ => 1
  | Cont.mapConstS _ => 1
  | Cont.raiseE _ => 1
  | Cont.subChain h t => 1 + (2 + optContSize h) + listContSize t

def optContSize : Option Cont → Nat
  | none => 0
  | some c => contSize c

def listContSize : List (Option Cont) → Nat
  | [] => 0
  | oc :: r => (2 + optContSize oc) + listContSize r

end

def nodeSize (p : PNode) : Nat := 2 + optContSize p.onComplete

def chainSize : List PNode → Nat
  | [] => 0
  | p :: r => nodeSize p + chainSize r

theorem chainSize_append (a b : List PNode) :
    chainSize (a ++ b) = chainSize a + chainSize b := by
  induction a with
  | nil => simp [chainSize]
  | cons p r ih => simp [chainSize, ih]; omega

theorem chainSize_map_mkFresh (t : List (Option Cont)) :
    chainSize (t.map mkFresh) = listContSize t := by
  induction t with
  | nil => simp [chainSize, listContSize]
  | cons oc r ih => simp [chainSize, listContSize, nodeSize, mkFresh, ih]

theorem runCont_chain_size {f : Cont} {v : Val} {sh : PNode} {st : List PNode}
    (h : runCont f v = CRes.chain sh st) :
    contSize f = 1 + nodeSize sh + chainSize st := by
  cases f with
  | mapAddN k => cases v <;> simp [runCont] at h
  | mapConstN k => simp [runCont] at h
  | mapConstS str => simp [runCont] at h
  | raiseE e => simp [runCont] at h
  | subChain hh tt =>
      simp [runCont] at h
      obtain ⟨h1, h2⟩ := h
      subst h1; subst h2
      simp [contSize, nodeSize, mkFresh, chainSize_map_mkFresh]

/-- `_Promise.fail(e)` on one node: store the exception, set `_value`
to the literal string `'exception'`, mark `FINISHED`. -/
def failNode (e : String) (p : PNode) : PNode :=
  { p with exc := some e, value := Val.s "exception", state := PState.finished }

/-- `fail` recurses over the whole remaining chain. -/
def failAll (e : String) (c : List PNode) : List PNode :=
  c.map (failNode e)

/-- Mark a node `FINISHED` (final step of `finalize`). -/
def finishNode (p : PNode) : PNode :=
  { p with state := PState.finished }

/-- The splice step of `finalize`: after appending the parent's old
tail behind the returned chain, the returned chain's first node
receives the parent's current `_value` if it has none yet. -/
def spliceHead (parentVal : Val) (sh : PNode) : PNode :=
  if sh.value = Val.noRes then { sh with value := parentVal } else sh

theorem spliceHead_onComplete (v : Val) (sh : PNode) :
    (spliceHead v sh).onComplete = sh.onComplete := by
  unfold spliceHead
  split <;> rfl

theorem nodeSize_spliceHead (v : Val) (sh : PNode) :
    nodeSize (spliceHead v sh) = nodeSize sh := by
  simp [nodeSize, spliceHead_onComplete]

/-- `_Promise.finalize` together with `propagate_to_next`, driving the
remaining chain (head = the node being finalized, whose `_value` is
already set) to completion, with an explicit step budget (`fuel`).
Mirrors `orchestrator.py:206-253`:

* a continuation raising `e` turns into `fail(e)` on this node and on
  every following node;
* a continuation returning a secondary chain gets spliced: the
  returned nodes run before this node's old `_next_promise`, and the
  parent value is forwarded into the returned chain's head;
* a plain result is forwarded into the next node (or stored here if
  the node is last).

Each step consumes the head node, and a spliced chain is smaller than
the continuation that returned it, so `chainSize` of the initial chain
bounds the number of steps (`finalizeGoF_fuel_irrel`); `finalizeGo`
below supplies that budget, making the budget invisible. -/
def finalizeGoF : Nat → List PNode → List PNode
  | _, [] => []
  | 0, c => c
  | Nat.succ fuel, p :: rest =>
    match p.onComplete with
    | none =>
      match rest with
      | [] => [finishNode p]
      | q :: rs => finishNode p :: finalizeGoF fuel ({ q with value := p.value } :: rs)
    | some f =>
      match runCont f p.value with
      | CRes.raised e => failNode e p :: failAll e rest
      | CRes.value v =>
        match rest with
        | [] => [{ finishNode p with value := v }]
        | q :: rs => finishNode p :: finalizeGoF fuel ({ q with value := v } :: rs)
      | CRes.chain sh st =>
          finishNode p :: finalizeGoF fuel (spliceHead p.value sh :: st ++ rest)

/-- Any step budget at least `chainSize c` computes the same result:
the budget is immaterial, it only makes the recursion structural. -/
theorem finalizeGoF_fuel_irrel :
    ∀ (N M : Nat) (c : List PNode), chainSize c ≤ N → chainSize c ≤ M →
      finalizeGoF N c = finalizeGoF M c := by
  intro N
  induction N with
  | zero =>
      intro M c hN _
      cases c with
      | nil => cases M <;> rfl
      | cons p rest =>
          simp only [chainSize, nodeSize] at hN
          omega
  | succ N ih =>
      intro M c hN hM
      cases c with
      | nil => cases M <;> rfl
      | cons p rest =>
          have h2 : 2 ≤ chainSize (p :: rest) := by
            simp only [chainSize, nodeSize]
            omega
          obtain ⟨M', rfl⟩ : ∃ M', M = M' + 1 := ⟨M - 1, by omega⟩
          simp only [finalizeGoF]
          rcases ho : p.onComplete with _ | f
          · simp only
            cases rest with
            | nil => rfl
            | cons q rs =>
                simp only
                congr 1
                apply ih
                · simp only [chainSize, nodeSize] at hN ⊢
                  omega
                · simp only [chainSize, nodeSize] at hM ⊢
                  omega
          · rcases hr : runCont f p.value with v | e | ⟨sh, st⟩
            · simp only [hr]
              cases rest with
              | nil => rfl
              | cons q rs =>
                  simp only
                  congr 1
                  apply ih
                  · simp only [chainSize, nodeSize] at hN ⊢
                    omega
                  · simp only [chainSize, nodeSize] at hM ⊢
                    omega
            · simp only [hr]
            · simp only [hr]
              congr 1
              have hc := runCont_chain_size hr
              have hsplit : chainSize (spliceHead p.value sh :: st ++ rest) + 3 =
                  chainSize (p :: rest) := by
                simp only [chainSize, List.append_eq, chainSize_append, nodeSize_spliceHead]
                simp only [nodeSize, ho, optContSize, hc]
                omega
              apply ih
              · omega
              · omega

/-- `finalizeGoF` with the budget made invisible. -/
def finalizeGo (c : List PNode) : List PNode :=
  finalizeGoF (chainSize c) c

/-- `_Promise.finalize(value)` called on the head of a chain: if a
value is supplied, it overwrites the head's `_value` first. -/
def finalizeChain (c : List PNode) (v : Val) : List PNode :=
  match c with
  | [] => []
  | p :: rest =>
      finalizeGo ((if v = Val.noRes then p else { p with value := v }) :: rest)

/-- `_Promise.then(on_complete)`, invoked on the last node of a chain
(`orchestrator.py:177-194`): if that node already has a continuation,
append a fresh node carrying `f`; otherwise store `f` on the node and
append a fresh continuation-less node.  Returns the whole chain (the
new tail is the appended node). -/
def thenP : List PNode → Cont → List PNode
  | [], _ => []
  | [p], f =>
    match p.onComplete with
    | some _ => [p, mkFresh (some f)]
    | none => [{ p with onComplete := some f }, mkFresh none]
  | p :: q :: rest, f => p :: thenP (q :: rest) f

/-- `_value` of `_last_promise()` (what `Completion.result` returns
once the chain is finished). -/
def lastVal (c : List PNode) : Val :=
  match c.getLast? with
  | some p => p.value
  | none => Val.noRes

/-- `Completion.exception`: `_exception` of `_last_promise()`. -/
def lastExc (c : List PNode) : Option String :=
  match c.getLast? with
  | some p => p.exc
  | none => none

/-- `Completion.has_result`: the last node is `FINISHED`. -/
def hasResult (c : List PNode) : Bool :=
  match c.getLast? with
  | some p => decide (p.state = PState.finished)
  | none => false

/-- `Completion.result` (`orchestrator.py:436-445`): assert that the
last node is `FINISHED`, then return its `_value`.  An assertion
failure is an `AssertionError`; on a finished chain the stored value
is returned — failed chains included. -/
def resultE (c : List PNode) : Except String Val :=
  match c.getLast? with
  | some p =>
      if p.state = PState.finished then Except.ok p.value
      else Except.error "AssertionError"
  | none => Except.error "AssertionError"

/-- `Completion.is_errored`. -/
def isErrored (c : List PNode) : Bool :=
  (lastExc c).isSome

/-- `orchestrator.raise_if_exception(c)`: re-raise the chain's captured
exception, if any (the cross-interpreter copy is the identity here). -/
def raiseIfException (c : List PNode) : Except String Unit :=
  match lastExc c with
  | some e => Except.error e
  | none => Except.ok ()

/-! ## Lemmas about driving a chain -/

theorem lastVal_cons (x : PNode) {l : List PNode} (h : l ≠ []) :
    lastVal (x :: l) = lastVal l := by
  obtain ⟨y, ys, rfl⟩ := List.exists_cons_of_ne_nil h
  simp [lastVal, List.getLast?_cons_cons]

theorem lastExc_cons (x : PNode) {l : List PNode} (h : l ≠ []) :
    lastExc (x :: l) = lastExc l := by
  obtain ⟨y, ys, rfl⟩ := List.exists_cons_of_ne_nil h
  simp [lastExc, List.getLast?_cons_cons]

/-! Unfolding equations for `finalizeGo`, one per behaviour of the head
node.  (`finalizeGo` is defined by well-founded recursion with
dependent matches, so these rewriting-friendly equations are proved
once and used everywhere.) -/

theorem finalizeGo_none_nil {p : PNode} (ho : p.onComplete = none) :
    finalizeGo [p] = [finishNode p] := by
  obtain ⟨m, hm⟩ : ∃ m, chainSize [p] = m + 1 :=
    ⟨chainSize [p] - 1, by simp only [chainSize, nodeSize]; omega⟩
  unfold finalizeGo
  rw [hm]
  simp only [finalizeGoF, ho]

theorem finalizeGo_none_cons {p q : PNode} {rs : List PNode} (ho : p.onComplete = none) :
    finalizeGo (p :: q :: rs) =
      finishNode p :: finalizeGo ({ q with value := p.value } :: rs) := by
  obtain ⟨m, hm⟩ : ∃ m, chainSize (p :: q :: rs) = m + 1 :=
    ⟨chainSize (p :: q :: rs) - 1, by simp only [chainSize, nodeSize]; omega⟩
  unfold finalizeGo
  rw [hm]
  simp only [finalizeGoF, ho]
  congr 1
  apply finalizeGoF_fuel_irrel
  · simp only [chainSize, nodeSize] at hm ⊢
    omega
  · exact le_refl _

theorem finalizeGo_some_raised {p : PNode} {rest : List PNode} {f : Cont} {e : String}
    (ho : p.onComplete = some f) (hr : runCont f p.value = CRes.raised e) :
    finalizeGo (p :: rest) = failNode e p :: failAll e rest := by
  obtain ⟨m, hm⟩ : ∃ m, chainSize (p :: rest) = m + 1 :=
    ⟨chainSize (p :: rest) - 1, by simp only [chainSize, nodeSize]; omega⟩
  unfold finalizeGo
  rw [hm]
  simp only [finalizeGoF, ho, hr]

theorem finalizeGo_some_value_nil {p : PNode} {f : Cont} {v : Val}
    (ho : p.onComplete = some f) (hr : runCont f p.value = CRes.value v) :
    finalizeGo [p] = [{ finishNode p with value := v }] := by
  obtain ⟨m, hm⟩ : ∃ m, chainSize [p] = m + 1 :=
    ⟨chainSize [p] - 1, by simp only [chainSize, nodeSize]; omega⟩
  unfold finalizeGo
  rw [hm]
  simp only [finalizeGoF, ho, hr]

theorem finalizeGo_some_value_cons {p q : PNode} {rs : List PNode} {f : Cont} {v : Val}
    (ho : p.onComplete = some f) (hr : runCont f p.value = CRes.value v) :
    finalizeGo (p :: q :: rs) =
      finishNode p :: finalizeGo ({ q with value := v } :: rs) := by
  obtain ⟨m, hm⟩ : ∃ m, chainSize (p :: q :: rs) = m + 1 :=
    ⟨chainSize (p :: q :: rs) - 1, by simp only [chainSize, nodeSize]; omega⟩
  unfold finalizeGo
  rw [hm]
  simp only [finalizeGoF, ho, hr]
  congr 1
  apply finalizeGoF_fuel_irrel
  · simp only [chainSize, nodeSize] at hm ⊢
    omega
  · exact le_refl _

theorem finalizeGo_some_chain {p : PNode} {rest : List PNode} {f : Cont} {sh : PNode}
    {st : List PNode} (ho : p.onComplete = some f)
    (hr : runCont f p.value = CRes.chain sh st) :
    finalizeGo (p :: rest) =
      finishNode p :: finalizeGo (spliceHead p.value sh :: st ++ rest) := by
  obtain ⟨m, hm⟩ : ∃ m, chainSize (p :: rest) = m + 1 :=
    ⟨chainSize (p :: rest) - 1, by simp only [chainSize, nodeSize]; omega⟩
  have hc := runCont_chain_size hr
  unfold finalizeGo
  rw [hm]
  simp only [finalizeGoF, ho, hr]
  congr 1
  apply finalizeGoF_fuel_irrel
  · simp only [chainSize, List.append_eq, chainSize_append, nodeSize_spliceHead] at hm ⊢
    simp only [nodeSize, ho, optContSize, hc] at hm ⊢
    omega
  · exact le_refl _

theorem finalizeGo_ne_nil {c : List PNode} (h : c ≠ []) : finalizeGo c ≠ [] := by
  obtain ⟨p, rest, rfl⟩ := List.exists_cons_of_ne_nil h
  rcases ho : p.onComplete with _ | f
  · cases rest with
    | nil => rw [finalizeGo_none_nil ho]; simp
    | cons q rs => rw [finalizeGo_none_cons ho]; simp
  · rcases hr : runCont f p.value with v | e | ⟨sh, st⟩
    · cases rest with
      | nil => rw [finalizeGo_some_value_nil ho hr]; simp
      | cons q rs => rw [finalizeGo_some_value_cons ho hr]; simp
    · rw [finalizeGo_some_raised ho hr]; simp
    · rw [finalizeGo_some_chain ho hr]; simp

theorem failAll_last (e : String) (c : List PNode) (h : c ≠ []) :
    lastVal (failAll e c) = Val.s "exception" ∧ lastExc (failAll e c) = some e := by
  induction c with
  | nil => exact absurd rfl h
  | cons p rest ih =>
      cases rest with
      | nil => simp [failAll, lastVal, lastExc, failNode]
      | cons q rs =>
          have hne : failAll e (q :: rs) ≠ [] := by simp [failAll]
          have := ih (by simp)
          simpa [failAll, lastVal_cons _ hne, lastExc_cons _ hne] using this

theorem runCont_chain_inv {f : Cont} {v : Val} {sh : PNode} {st : List PNode}
    (h : runCont f v = CRes.chain sh st) :
    sh.exc = none ∧ sh.value = Val.noRes ∧ sh.state = PState.initialized ∧
      ∀ d ∈ st, d.exc = none := by
  cases f with
  | mapAddN k => cases v <;> simp [runCont] at h
  | mapConstN k => simp [runCont] at h
  | mapConstS str => simp [runCont] at h
  | raiseE e => simp [runCont] at h
  | subChain hh tt =>
      simp [runCont] at h
      obtain ⟨h1, h2⟩ := h
      subst h1; subst h2
      refine ⟨rfl, rfl, rfl, ?_⟩
      intro d hd
      simp only [List.mem_map] at hd
      obtain ⟨oc, _, rfl⟩ := hd
      rfl

theorem spliceHead_exc (v : Val) (sh : PNode) : (spliceHead v sh).exc = sh.exc := by
  unfold spliceHead
  split <;> rfl

/-- Key lemma for the splice claim: appending one trivial
(continuation-less, value-less) node to the tail of a chain does not
change the final value or the final exception produced by driving the
chain; the trivial node just receives and re-exposes the final result
of the prefix. -/
theorem finalizeGo_append_trivial :
    ∀ (N : Nat) (c : List PNode), chainSize c ≤ N → c ≠ [] →
      (∀ d ∈ c, d.exc = none) →
      lastVal (finalizeGo (c ++ [mkFresh none])) = lastVal (finalizeGo c) ∧
      lastExc (finalizeGo (c ++ [mkFresh none])) = lastExc (finalizeGo c) := by
  intro N
  induction N with
  | zero =>
      intro c hsz hne _
      obtain ⟨p, rest, rfl⟩ := List.exists_cons_of_ne_nil hne
      simp only [chainSize, nodeSize] at hsz
      omega
  | succ N ih =>
      intro c hsz hne hexc
      obtain ⟨p, rest, rfl⟩ := List.exists_cons_of_ne_nil hne
      have hpexc : p.exc = none := hexc _ (List.mem_cons_self _ _)
      rcases ho : p.onComplete with _ | f
      · -- head has no continuation: simple forwarding
        cases rest with
        | nil =>
            have e1 : (p :: ([] : List PNode)) ++ [mkFresh none] = p :: [mkFresh none] := by
              simp
            rw [e1, finalizeGo_none_cons ho, finalizeGo_none_nil rfl, finalizeGo_none_nil ho]
            simp [lastVal, lastExc, finishNode, mkFresh, hpexc]
        | cons q rs =>
            have hq : ({ q with value := p.value } : PNode) :: rs ≠ [] := by simp
            have hsz' : chainSize ({ q with value := p.value } :: rs) ≤ N := by
              simp only [chainSize, nodeSize] at hsz ⊢
              omega
            have hexc' : ∀ d ∈ ({ q with value := p.value } : PNode) :: rs, d.exc = none := by
              intro d hd
              rcases List.mem_cons.mp hd with rfl | hd
              · exact hexc q (by simp)
              · exact hexc d (by simp [hd])
            have hstep := ih _ hsz' hq hexc'
            have hl := finalizeGo_ne_nil hq
            have hl2 : finalizeGo (({ q with value := p.value } : PNode) ::
                (rs ++ [mkFresh none])) ≠ [] := finalizeGo_ne_nil (by simp)
            have e1 : (p :: q :: rs) ++ [mkFresh none] = p :: q :: (rs ++ [mkFresh none]) := by
              simp
            rw [e1, finalizeGo_none_cons ho, finalizeGo_none_cons ho]
            constructor
            · rw [lastVal_cons _ hl2, lastVal_cons _ hl]
              simpa using hstep.1
            · rw [lastExc_cons _ hl2, lastExc_cons _ hl]
              simpa using hstep.2
      · rcases hr : runCont f p.value with v | e | ⟨sh, st⟩
        · -- plain value result
          cases rest with
          | nil =>
              have e1 : (p :: ([] : List PNode)) ++ [mkFresh none] = p :: [mkFresh none] := by
                simp
              rw [e1, finalizeGo_some_value_cons ho hr, finalizeGo_none_nil rfl,
                finalizeGo_some_value_nil ho hr]
              simp [lastVal, lastExc, finishNode, mkFresh, hpexc]
          | cons q rs =>
              have hq : ({ q with value := v } : PNode) :: rs ≠ [] := by simp
              have hsz' : chainSize ({ q with value := v } :: rs) ≤ N := by
                simp only [chainSize, nodeSize] at hsz ⊢
                omega
              have hexc' : ∀ d ∈ ({ q with value := v } : PNode) :: rs, d.exc = none := by
                intro d hd
                rcases List.mem_cons.mp hd with rfl | hd
                · exact hexc q (by simp)
                · exact hexc d (by simp [hd])
              have hstep := ih _ hsz' hq hexc'
              have hl := finalizeGo_ne_nil hq
              have hl2 : finalizeGo (({ q with value := v } : PNode) ::
                  (rs ++ [mkFresh none])) ≠ [] := finalizeGo_ne_nil (by simp)
              have e1 : (p :: q :: rs) ++ [mkFresh none] = p :: q :: (rs ++ [mkFresh none]) := by
                simp
              rw [e1, finalizeGo_some_value_cons ho hr, finalizeGo_some_value_cons ho hr]
              constructor
              · rw [lastVal_cons _ hl2, lastVal_cons _ hl]
                simpa using hstep.1
              · rw [lastExc_cons _ hl2, lastExc_cons _ hl]
                simpa using hstep.2
        · -- the continuation raised: both chains fail entirely
          have e1 : (p :: rest) ++ [mkFresh none] = p :: (rest ++ [mkFresh none]) := by
            simp
          rw [e1, finalizeGo_some_raised ho hr, finalizeGo_some_raised ho hr]
          have h1 := failAll_last e (p :: (rest ++ [mkFresh none])) (by simp)
          have h2 := failAll_last e (p :: rest) (by simp)
          simp only [failAll, List.map_cons] at h1 h2 ⊢
          rw [h1.1, h1.2, h2.1, h2.2]
          exact ⟨rfl, rfl⟩
        · -- splice case
          have hinv := runCont_chain_inv hr
          have hsub : spliceHead p.value sh :: st ++ rest ≠ [] := by simp
          have hc := runCont_chain_size hr
          have hsz' : chainSize (spliceHead p.value sh :: st ++ rest) ≤ N := by
            simp only [chainSize, List.append_eq, chainSize_append, nodeSize_spliceHead] at hsz ⊢
            simp only [nodeSize, ho, optContSize, hc] at hsz ⊢
            omega
          have hexc' : ∀ d ∈ spliceHead p.value sh :: st ++ rest, d.exc = none := by
            intro d hd
            rcases List.mem_cons.mp hd with rfl | hd
            · rw [spliceHead_exc]
              exact hinv.1
            · rcases List.mem_append.mp hd with hd | hd
              · exact hinv.2.2.2 d hd
              · exact hexc d (by simp [hd])
          have hstep := ih _ hsz' hsub hexc'
          have hl := finalizeGo_ne_nil hsub
          have hl2 : finalizeGo (spliceHead p.value sh ::
              st ++ (rest ++ [mkFresh none])) ≠ [] := finalizeGo_ne_nil (by simp)
          have e1 : (p :: rest) ++ [mkFresh none] = p :: (rest ++ [mkFresh none]) := by
            simp
          rw [e1, finalizeGo_some_chain ho hr, finalizeGo_some_chain ho hr]
          have hassoc : (spliceHead p.value sh :: st ++ rest) ++ [mkFresh none] =
              spliceHead p.value sh :: st ++ (rest ++ [mkFresh none]) := by
            simp
          rw [hassoc] at hstep
          constructor
          · rw [lastVal_cons _ hl2, lastVal_cons _ hl]
            simpa using hstep.1
          · rw [lastExc_cons _ hl2, lastExc_cons _ hl]
            simpa using hstep.2

/-! ## Observer helper lemmas -/

theorem resultE_cons (x : PNode) {l : List PNode} (h : l ≠ []) :
    resultE (x :: l) = resultE l := by
  obtain ⟨y, ys, rfl⟩ := List.exists_cons_of_ne_nil h
  simp [resultE, List.getLast?_cons_cons]

theorem failAll_result (e : String) (c : List PNode) (h : c ≠ []) :
    resultE (failAll e c) = Except.ok (Val.s "exception") ∧
    raiseIfException (failAll e c) = Except.error e := by
  have hlast := failAll_last e c h
  constructor
  · induction c with
    | nil => exact absurd rfl h
    | cons p rest ih =>
        cases rest with
        | nil => simp [failAll, resultE, failNode]
        | cons q rs =>
            have hne : failAll e (q :: rs) ≠ [] := by simp [failAll]
            have := ih (by simp) (failAll_last e (q :: rs) (by simp))
            simpa [failAll, resultE_cons _ hne] using this
  · simp [raiseIfException, hlast.2]

/-! ## C1: chain splice -/

/-- C1: chain splice.  For every continuation returning a secondary
chain (`Cont.subChain h t`) handed to `then()` on a parent promise,
finalizing the parent with value `v` (1) splices the secondary chain's
nodes in front of the parent node's existing next node, forwarding the
parent's value into the secondary chain's first node, and (2) the
driven parent chain's final value (and final exception) equal those of
the secondary chain driven on its own with the same input — the
secondary chain's final value becomes the parent chain's final result.
Quantifying over `h` and `t` covers arbitrarily nested (2-3 level)
secondary chains, whose driven result is the composed value. -/
theorem C1_chain_splice (h : Option Cont) (t : List (Option Cont)) (v : Val)
    (hv : v ≠ Val.noRes) :
    finalizeChain (thenP [mkFresh none] (Cont.subChain h t)) v =
      finishNode { mkFresh (some (Cont.subChain h t)) with value := v } ::
        finalizeGo ({ mkFresh h with value := v } :: t.map mkFresh ++ [mkFresh none]) ∧
    lastVal (finalizeChain (thenP [mkFresh none] (Cont.subChain h t)) v) =
      lastVal (finalizeChain (mkFresh h :: t.map mkFresh) v) ∧
    lastExc (finalizeChain (thenP [mkFresh none] (Cont.subChain h t)) v) =
      lastExc (finalizeChain (mkFresh h :: t.map mkFresh) v) := by
  have hparent : finalizeChain (thenP [mkFresh none] (Cont.subChain h t)) v =
      finalizeGo ({ mkFresh (some (Cont.subChain h t)) with value := v } :: [mkFresh none]) := by
    simp [thenP, finalizeChain, mkFresh, hv]
  have ho : ({ mkFresh (some (Cont.subChain h t)) with value := v } : PNode).onComplete =
      some (Cont.subChain h t) := rfl
  have hr : runCont (Cont.subChain h t)
      ({ mkFresh (some (Cont.subChain h t)) with value := v } : PNode).value =
      CRes.chain (mkFresh h) (t.map mkFresh) := rfl
  have hstep := @finalizeGo_some_chain _ [mkFresh none] _ _ _ ho hr
  have hsp : spliceHead ({ mkFresh (some (Cont.subChain h t)) with value := v } : PNode).value
      (mkFresh h) = { mkFresh h with value := v } := rfl
  rw [hparent, hstep, hsp]
  have hsub : finalizeChain (mkFresh h :: t.map mkFresh) v =
      finalizeGo ({ mkFresh h with value := v } :: t.map mkFresh) := by
    simp [finalizeChain, hv]
  have hexc : ∀ d ∈ ({ mkFresh h with value := v } : PNode) :: t.map mkFresh, d.exc = none := by
    intro d hd
    rcases List.mem_cons.mp hd with rfl | hd
    · rfl
    · obtain ⟨oc, _, rfl⟩ := List.mem_map.mp hd
      rfl
  have htrivial := finalizeGo_append_trivial
    (chainSize (({ mkFresh h with value := v } : PNode) :: t.map mkFresh))
    (({ mkFresh h with value := v } : PNode) :: t.map mkFresh) (le_refl _) (by simp) hexc
  have hne : finalizeGo (({ mkFresh h with value := v } : PNode) :: t.map mkFresh) ≠ [] :=
    finalizeGo_ne_nil (by simp)
  have hne2 : finalizeGo (({ mkFresh h with value := v } : PNode) ::
      t.map mkFresh ++ [mkFresh none]) ≠ [] := finalizeGo_ne_nil (by simp)
  refine ⟨rfl, ?_, ?_⟩
  · rw [hsub, lastVal_cons _ hne2]
    exact htrivial.1
  · rw [hsub, lastExc_cons _ hne2]
    exact htrivial.2

/-- Witness for C1 on a concrete 3-level nested chain: the
continuation returns a secondary chain whose own head continuation
returns a further chain. -/
theorem C1_chain_splice_witness :
    (Val.n 1 ≠ Val.noRes) ∧
    (finalizeChain (thenP [mkFresh none] (Cont.subChain
        (some (Cont.subChain (some (Cont.mapAddN 10)) [some (Cont.mapAddN 100)]))
        [some (Cont.mapAddN 1000)])) (Val.n 1) =
      finishNode { mkFresh (some (Cont.subChain
          (some (Cont.subChain (some (Cont.mapAddN 10)) [some (Cont.mapAddN 100)]))
          [some (Cont.mapAddN 1000)])) with value := Val.n 1 } ::
        finalizeGo ({ mkFresh (some (Cont.subChain (some (Cont.mapAddN 10))
            [some (Cont.mapAddN 100)])) with value := Val.n 1 } ::
          [some (Cont.mapAddN 1000)].map mkFresh ++ [mkFresh none]) ∧
    lastVal (finalizeChain (thenP [mkFresh none] (Cont.subChain
        (some (Cont.subChain (some (Cont.mapAddN 10)) [some (Cont.mapAddN 100)]))
        [some (Cont.mapAddN 1000)])) (Val.n 1)) =
      lastVal (finalizeChain (mkFresh (some (Cont.subChain (some (Cont.mapAddN 10))
          [some (Cont.mapAddN 100)])) ::
        [some (Cont.mapAddN 1000)].map mkFresh) (Val.n 1)) ∧
    lastExc (finalizeChain (thenP [mkFresh none] (Cont.subChain
        (some (Cont.subChain (some (Cont.mapAddN 10)) [some (Cont.mapAddN 100)]))
        [some (Cont.mapAddN 1000)])) (Val.n 1)) =
      lastExc (finalizeChain (mkFresh (some (Cont.subChain (some (Cont.mapAddN 10))
          [some (Cont.mapAddN 100)])) ::
        [some (Cont.mapAddN 1000)].map mkFresh) (Val.n 1))) :=
  ⟨by decide,
   C1_chain_splice
     (some (Cont.subChain (some (Cont.mapAddN 10)) [some (Cont.mapAddN 100)]))
     [some (Cont.mapAddN 1000)] (Val.n 1) (by decide)⟩

/-- The composed value of the 3-level nested witness chain: input 1
flows through +10 and +100 in the inner chain, then +1000, giving
1111 both for the driven parent chain and for the secondary chain
driven alone. -/
theorem C1_nested_value_check :
    lastVal (finalizeChain (thenP [mkFresh none] (Cont.subChain
        (some (Cont.subChain (some (Cont.mapAddN 10)) [some (Cont.mapAddN 100)]))
        [some (Cont.mapAddN 1000)])) (Val.n 1)) = Val.n 1111 := rfl

/-! ## C2: failure propagation -/

/-- C2 (amended): failure propagation.  If the continuation of a node
raises `e` during `finalize`, the exception is caught at the
continuation boundary and converted into `fail(e)` (no exception
escapes: `finalizeGo` returns normally); `fail(e)` marks this node and
every remaining node `FINISHED` with the captured exception and the
sentinel value `'exception'`, short-circuiting normal value
propagation.  Afterwards the completion's `exception` is the captured
`e` and `raise_if_exception` re-raises it; `result` however returns
the sentinel string `'exception'` (it does not raise). -/
theorem C2_failure_propagation (p : PNode) (rest : List PNode) (f : Cont) (e : String)
    (ho : p.onComplete = some f) (hr : runCont f p.value = CRes.raised e) :
    finalizeGo (p :: rest) = failNode e p :: failAll e rest ∧
    (∀ d ∈ finalizeGo (p :: rest), d.state = PState.finished ∧ d.exc = some e ∧
      d.value = Val.s "exception") ∧
    lastExc (finalizeGo (p :: rest)) = some e ∧
    resultE (finalizeGo (p :: rest)) = Except.ok (Val.s "exception") ∧
    raiseIfException (finalizeGo (p :: rest)) = Except.error e := by
  have hfail := @finalizeGo_some_raised p rest f e ho hr
  have hall : finalizeGo (p :: rest) = failAll e (p :: rest) := by
    rw [hfail]
    simp [failAll]
  refine ⟨hfail, ?_, ?_, ?_, ?_⟩
  · rw [hall]
    intro d hd
    obtain ⟨q, _, rfl⟩ := List.mem_map.mp hd
    exact ⟨rfl, rfl, rfl⟩
  · rw [hall]
    exact (failAll_last e _ (by simp)).2
  · rw [hall]
    exact (failAll_result e _ (by simp)).1
  · rw [hall]
    exact (failAll_result e _ (by simp)).2

/-- Witness for C2: a two-node chain whose head continuation raises. -/
theorem C2_failure_propagation_witness :
    (({ mkFresh (some (Cont.raiseE "boom")) with value := Val.n 1 } : PNode).onComplete =
        some (Cont.raiseE "boom")) ∧
    (runCont (Cont.raiseE "boom")
        ({ mkFresh (some (Cont.raiseE "boom")) with value := Val.n 1 } : PNode).value =
      CRes.raised "boom") ∧
    (finalizeGo ({ mkFresh (some (Cont.raiseE "boom")) with value := Val.n 1 } ::
        [mkFresh none]) =
      failNode "boom" { mkFresh (some (Cont.raiseE "boom")) with value := Val.n 1 } ::
        failAll "boom" [mkFresh none] ∧
    (∀ d ∈ finalizeGo ({ mkFresh (some (Cont.raiseE "boom")) with value := Val.n 1 } ::
        [mkFresh none]), d.state = PState.finished ∧ d.exc = some "boom" ∧
      d.value = Val.s "exception") ∧
    lastExc (finalizeGo ({ mkFresh (some (Cont.raiseE "boom")) with value := Val.n 1 } ::
      [mkFresh none])) = some "boom" ∧
    resultE (finalizeGo ({ mkFresh (some (Cont.raiseE "boom")) with value := Val.n 1 } ::
      [mkFresh none])) = Except.ok (Val.s "exception") ∧
    raiseIfException (finalizeGo ({ mkFresh (some (Cont.raiseE "boom")) with value := Val.n 1 } ::
      [mkFresh none])) = Except.error "boom") :=
  ⟨rfl, rfl,
   C2_failure_propagation { mkFresh (some (Cont.raiseE "boom")) with value := Val.n 1 }
     [mkFresh none] (Cont.raiseE "boom") "boom" rfl rfl⟩

/-- Counterexample to C2 as stated: on a concretely failed chain the
`result` accessor does not raise the captured exception — the chain
captured `"boom"`, yet `result` succeeds and returns the sentinel
value `'exception'`. -/
theorem C2_result_returns_value_counterexample :
    lastExc (finalizeChain (thenP [mkFresh none] (Cont.raiseE "boom")) (Val.n 1)) =
      some "boom" ∧
    resultE (finalizeChain (thenP [mkFresh none] (Cont.raiseE "boom")) (Val.n 1)) =
      Except.ok (Val.s "exception") :=
  ⟨rfl, rfl⟩

/-! ## Cache: `OutdatableData` (`orchestrator.py:1313-1416`)

`datetime` values are modelled as integers counting seconds since the
epoch (`datetime.fromtimestamp(0)` is `0`); the implicit
`datetime.utcnow()` becomes an explicit `now` argument.  The JSON
payload is opaque (`Option Nat`), `None` payloads included. -/

structure OutdatableData : Type where
  data : Option Nat
  last_refresh : Option Int
deriving DecidableEq, Repr

/-- The `OutdatableData.__init__` constructor: a payload given without
a refresh stamp is stamped `now`; otherwise both fields are stored as
given (no payload and no stamp means never refreshed). -/
def OutdatableData.make (data : Option Nat) (lastRefresh : Option Int) (now : Int) :
    OutdatableData :=
  if data ≠ none ∧ lastRefresh = none then ⟨data, some now⟩ else ⟨data, lastRefresh⟩

/-- `OutdatableData.outdated(timeout)`: default timeout 600 s; an
unset `last_refresh` is always outdated; otherwise outdated iff
`last_refresh < now - timeout`. -/
def OutdatableData.outdated (d : OutdatableData) (timeout : Option Int) (now : Int) : Bool :=
  let t := timeout.getD 600
  match d.last_refresh with
  | none => true
  | some lr => decide (lr < now - t)

/-- A cache dictionary (`OutdatableDict` /
`OutdatablePersistentDict`): association list keyed by host name. -/
abbrev Cache := List (String × OutdatableData)

def lookupC (c : Cache) (k : String) : Option OutdatableData :=
  (c.find? (fun p => p.1 == k)).map (fun p => p.2)

def containsKey (c : Cache) (k : String) : Bool :=
  c.any (fun p => p.1 == k)

/-- Python `d[k] = v`: replace the entry if the key is present,
append it otherwise. -/
def setItem (c : Cache) (k : String) (v : OutdatableData) : Cache :=
  if containsKey c k then c.map (fun p => if p.1 == k then (k, v) else p)
  else c ++ [(k, v)]

/-- Python `del d[k]` (on a dict, whose keys are unique). -/
def delItem (c : Cache) (k : String) : Cache :=
  c.filter (fun p => !(p.1 == k))

/-- `OutdatableDictMixin.invalidate(key)`: re-store the existing
payload with `last_refresh` forced to the epoch.  (Python indexes
`self[key]`, raising `KeyError` for an absent key; an absent key is
left untouched here and excluded by the theorems' hypotheses.) -/
def invalidateC (c : Cache) (k : String) : Cache :=
  match lookupC c k with
  | some d => setItem c k ⟨d.data, some 0⟩
  | none => c

theorem lookupC_setItem (c : Cache) (k : String) (v : OutdatableData) :
    lookupC (setItem c k v) k = some v := by
  unfold setItem
  split
  · rename_i hc
    unfold containsKey at hc
    induction c with
    | nil => simp at hc
    | cons p rest ih =>
        by_cases hp : p.1 == k
        · simp [lookupC, List.find?, hp]
        · simp only [List.any_cons, hp, Bool.false_or] at hc
          simp only [List.map_cons, hp, if_false]
          have := ih hc
          simpa [lookupC, List.find?, hp] using this
  · induction c with
    | nil => simp [lookupC]
    | cons p rest ih =>
        rename_i hc
        unfold containsKey at hc
        simp only [List.any_cons, Bool.or_eq_true, not_or] at hc
        obtain ⟨hp, hrest⟩ := hc
        simp only [Bool.not_eq_true] at hp
        have := ih (by unfold containsKey; simp [hrest])
        simpa [lookupC, List.find?, hp] using this

/-- C3 (amended): cache invalidation staleness.  `invalidate(host)`
keeps the entry's payload and forces `last_refresh` to the epoch; the
following staleness check `outdated(t)` is true for every timeout `t`
smaller than the seconds elapsed since the epoch at check time (in
particular every realistic timeout; as stated, for *every* `t ≥ 0`,
the claim fails once `t` is at least the age of the epoch, because the
check compares `last_refresh < now - t` strictly).  An entry with
unset `last_refresh` is stale for every timeout. -/
theorem C3_cache_invalidation_staleness (c : Cache) (k : String) (d : OutdatableData)
    (hl : lookupC c k = some d) (t : Option Int) (now : Int) (ht : t.getD 600 < now) :
    lookupC (invalidateC c k) k = some ⟨d.data, some 0⟩ ∧
    (⟨d.data, some 0⟩ : OutdatableData).outdated t now = true ∧
    (∀ d2 : OutdatableData, d2.last_refresh = none →
      ∀ (t2 : Option Int) (now2 : Int), d2.outdated t2 now2 = true) := by
  refine ⟨?_, ?_, ?_⟩
  · unfold invalidateC
    rw [hl]
    exact lookupC_setItem c k _
  · unfold OutdatableData.outdated
    simp only [decide_eq_true_eq]
    omega
  · intro d2 h2 t2 now2
    unfold OutdatableData.outdated
    rw [h2]

/-- Witness for C3: a one-entry cache, default timeout (600 s), checked
one hour after the epoch. -/
theorem C3_cache_invalidation_staleness_witness :
    (lookupC [("test", ⟨some 5, some 1000⟩)] "test" = some ⟨some 5, some 1000⟩) ∧
    ((none : Option Int).getD 600 < 3600) ∧
    (lookupC (invalidateC [("test", ⟨some 5, some 1000⟩)] "test") "test" =
        some ⟨some 5, some 0⟩ ∧
      (⟨some 5, some 0⟩ : OutdatableData).outdated none 3600 = true ∧
      (∀ d2 : OutdatableData, d2.last_refresh = none →
        ∀ (t2 : Option Int) (now2 : Int), d2.outdated t2 now2 = true)) :=
  ⟨rfl, by decide,
   C3_cache_invalidation_staleness [("test", ⟨some 5, some 1000⟩)] "test"
     ⟨some 5, some 1000⟩ rfl none 3600 (by decide)⟩

/-- Counterexample to C3 as stated: "`outdated(t)` returns true for
*every* timeout `t ≥ 0`" fails.  At a check time 1700000000 s after
the epoch (year 2023), an invalidated entry (`last_refresh = 0`) with
the absurd-but-nonnegative timeout `t = 1700000000` is *not* outdated:
`0 < 1700000000 - 1700000000` is false. -/
theorem C3_staleness_counterexample :
    (0 : Int) ≤ 1700000000 ∧
    lookupC (invalidateC [("test", ⟨some 5, some 1000⟩)] "test") "test" =
      some ⟨some 5, some 0⟩ ∧
    (⟨some 5, some 0⟩ : OutdatableData).outdated (some 1700000000) 1700000000 = false :=
  ⟨by decide, rfl, by decide⟩

/-! ## C4: cache / host-registry key-set synchronization
(`cephadm/module.py:302-333`, `add_host` / `remove_host` 821-845) -/

/-- Number of entries under key `k` (a Python dict always has 0 or 1). -/
def countKey : Cache → String → Nat
  | [], _ => 0
  | p :: r, k => (if p.1 == k then 1 else 0) + countKey r k

/-- The `self.inventory` host registry: a dict keyed by host name,
modelled by its key list.  `self.inventory[host] = {}` and
`del self.inventory[host]`: -/
def invAdd (inv : List String) (hostname : String) : List String :=
  if inv.contains hostname then inv else inv ++ [hostname]

def invDel (inv : List String) (hostname : String) : List String :=
  inv.filter (fun x => !(x == hostname))

/-- The first startup loop: give every registered host a (null) cache
entry if it has none. -/
def repairAdd (inv : List String) (c : Cache) : Cache :=
  inv.foldl (fun acc hostname =>
    if containsKey acc hostname then acc else setItem acc hostname ⟨none, none⟩) c

/-- The second startup loop: drop cache entries of unregistered hosts. -/
def repairFilter (inv : List String) (c : Cache) : Cache :=
  c.filter (fun p => inv.contains p.1)

/-- The `__init__` repair pass over one cache. -/
def repairCache (inv : List String) (c : Cache) : Cache :=
  repairFilter inv (repairAdd inv c)

/-- The orchestrator state relevant to host bookkeeping. -/
structure OrchState : Type where
  inventory : List String
  inventory_cache : Cache
  service_cache : Cache

/-- `CephadmOrchestrator.add_host`: register the host and give it one
fresh (null) entry in each cache. -/
def add_host (st : OrchState) (hostname : String) : OrchState :=
  { inventory := invAdd st.inventory hostname,
    inventory_cache := setItem st.inventory_cache hostname ⟨none, none⟩,
    service_cache := setItem st.service_cache hostname ⟨none, none⟩ }

/-- `CephadmOrchestrator.remove_host`: drop the host from the registry
and from both caches. -/
def remove_host (st : OrchState) (hostname : String) : OrchState :=
  { inventory := invDel st.inventory hostname,
    inventory_cache := delItem st.inventory_cache hostname,
    service_cache := delItem st.service_cache hostname }

/-- A cache is in sync with the registry: every registered host has
exactly one entry, every unregistered host has none. -/
def inSync (inv : List String) (c : Cache) : Prop :=
  ∀ k, countKey c k = if k ∈ inv then 1 else 0

theorem countKey_append (a b : Cache) (k : String) :
    countKey (a ++ b) k = countKey a k + countKey b k := by
  induction a with
  | nil => simp [countKey]
  | cons p r ih =>
      simp [countKey, ih]
      omega

theorem countKey_pos_of_containsKey {c : Cache} {k : String} (h : containsKey c k = true) :
    0 < countKey c k := by
  induction c with
  | nil => simp [containsKey] at h
  | cons p r ih =>
      by_cases hp : p.1 == k
      · simp [countKey, hp]
      · unfold containsKey at h ih
        simp only [List.any_cons, hp, Bool.false_or] at h
        have := ih h
        simp [countKey, hp]
        omega

theorem countKey_zero_of_not_containsKey {c : Cache} {k : String}
    (h : containsKey c k = false) :
    countKey c k = 0 := by
  induction c with
  | nil => rfl
  | cons p r ih =>
      unfold containsKey at h ih
      simp only [List.any_cons, Bool.or_eq_false_iff] at h
      obtain ⟨hp, hr⟩ := h
      simp [countKey, hp, ih hr]

theorem countKey_map_replace (c : Cache) (k : String) (v : OutdatableData) :
    countKey (c.map (fun p => if p.1 == k then (k, v) else p)) k = countKey c k := by
  induction c with
  | nil => rfl
  | cons p r ih =>
      rw [List.map_cons]
      by_cases hp : (p.1 == k) = true
      · rw [if_pos hp]
        simp only [countKey, ih]
        simp [hp]
      · rw [if_neg hp]
        simp only [countKey, ih]

theorem countKey_map_replace_other (c : Cache) (k k2 : String) (v : OutdatableData)
    (hne : k2 ≠ k) :
    countKey (c.map (fun p => if p.1 == k then (k, v) else p)) k2 = countKey c k2 := by
  induction c with
  | nil => rfl
  | cons p r ih =>
      rw [List.map_cons]
      by_cases hp : (p.1 == k) = true
      · rw [if_pos hp]
        have hpk : p.1 = k := by simpa using hp
        have h1 : (k == k2) = false := by
          simp
          exact fun he => hne he.symm
        have h2 : (p.1 == k2) = false := by rw [hpk]; exact h1
        simp only [countKey, ih]
        simp [h1, h2]
      · rw [if_neg hp]
        simp only [countKey, ih]

theorem countKey_setItem_self (c : Cache) (k : String) (v : OutdatableData)
    (hd : countKey c k ≤ 1) :
    countKey (setItem c k v) k = 1 := by
  unfold setItem
  split
  · rename_i hc
    rw [countKey_map_replace]
    have := countKey_pos_of_containsKey hc
    omega
  · rename_i hc
    rw [countKey_append, countKey_zero_of_not_containsKey (by simpa using hc)]
    simp [countKey]

theorem countKey_setItem_other (c : Cache) (k k2 : String) (v : OutdatableData)
    (hne : k2 ≠ k) :
    countKey (setItem c k v) k2 = countKey c k2 := by
  have hkk : (k == k2) = false := by
    simp
    exact fun he => hne he.symm
  unfold setItem
  split
  · rw [countKey_map_replace_other c k k2 v hne]
  · rw [countKey_append]
    simp [countKey, hkk]

theorem countKey_delItem (c : Cache) (k k2 : String) :
    countKey (delItem c k) k2 = if k2 = k then 0 else countKey c k2 := by
  induction c with
  | nil => simp [delItem, countKey]
  | cons p r ih =>
      unfold delItem at ih ⊢
      rw [List.filter_cons]
      by_cases hp : (p.1 == k) = true
      · have hpk : p.1 = k := by simpa using hp
        have hcond : (!(p.1 == k)) = false := by rw [hp]; rfl
        rw [hcond, if_neg (show ¬(false = true) by simp), ih]
        by_cases hk : k2 = k
        · simp [hk]
        · have h2 : (p.1 == k2) = false := by
            rw [hpk]
            simp
            exact fun he => hk he.symm
          simp [countKey, hk, h2]
      · have hcond : (!(p.1 == k)) = true := by
          simp only [Bool.not_eq_true'] at hp ⊢
          simpa using hp
        rw [if_pos hcond]
        simp only [countKey, ih]
        by_cases hk : k2 = k
        · subst hk
          have h2 : (p.1 == k2) = false := by simpa using hp
          simp [h2]
        · simp [hk]

theorem containsKey_append_single (c : Cache) (h k : String) (v : OutdatableData) :
    containsKey (c ++ [(h, v)]) k = (containsKey c k || (h == k)) := by
  unfold containsKey
  simp [List.any_append]

theorem countKey_repairAdd (inv : List String) (c : Cache) (k : String)
    (hd : ∀ k2, countKey c k2 ≤ 1) :
    countKey (repairAdd inv c) k =
      if containsKey c k then countKey c k else if k ∈ inv then 1 else 0 := by
  induction inv generalizing c with
  | nil =>
      simp only [repairAdd, List.foldl_nil, List.not_mem_nil, if_false]
      by_cases hc : containsKey c k
      · simp [hc]
      · simp [hc, countKey_zero_of_not_containsKey (by simpa using hc)]
  | cons h rest ih =>
      unfold repairAdd at ih ⊢
      simp only [List.foldl_cons]
      by_cases hc : containsKey c h
      · rw [if_pos hc, ih c hd]
        by_cases hck : containsKey c k
        · simp [hck]
        · have hkh : k ≠ h := by
            intro he
            subst he
            exact hck hc
          simp [hck, List.mem_cons, hkh]
      · rw [if_neg hc]
        have hset : setItem c h ⟨none, none⟩ = c ++ [(h, ⟨none, none⟩)] := by
          unfold setItem
          rw [if_neg (by simp [hc])]
        rw [hset]
        have hd2 : ∀ k2, countKey (c ++ [(h, ⟨none, none⟩)]) k2 ≤ 1 := by
          intro k2
          rw [countKey_append]
          by_cases hk2 : k2 = h
          · subst hk2
            rw [countKey_zero_of_not_containsKey (by simpa using hc)]
            simp [countKey]
          · have : (h == k2) = false := by
              simp
              exact fun he => hk2 he.symm
            simp [countKey, this]
            exact hd k2
        rw [ih _ hd2]
        by_cases hkh : k = h
        · subst hkh
          rw [containsKey_append_single]
          simp [hc, countKey_append, countKey,
            countKey_zero_of_not_containsKey (by simpa using hc)]
        · have hhk : (h == k) = false := by
            simp
            exact fun he => hkh he.symm
          rw [containsKey_append_single, hhk]
          simp only [Bool.or_false]
          by_cases hck : containsKey c k
          · simp [hck, countKey_append, countKey, hhk]
          · simp [hck, List.mem_cons, hkh]

theorem countKey_repairFilter (inv : List String) (c : Cache) (k : String) :
    countKey (repairFilter inv c) k = if k ∈ inv then countKey c k else 0 := by
  induction c with
  | nil => simp [repairFilter, countKey]
  | cons p r ih =>
      unfold repairFilter at ih ⊢
      rw [List.filter_cons]
      by_cases hm : p.1 ∈ inv
      · rw [if_pos (by simpa [List.elem_iff] using hm)]
        simp only [countKey, ih]
        by_cases hp : p.1 == k
        · have hpk : p.1 = k := by simpa using hp
          subst hpk
          simp [hm, hp]
        · by_cases hk : k ∈ inv <;> simp [hp, hk]
      · rw [if_neg (by simpa [List.elem_iff] using hm)]
        rw [ih]
        by_cases hp : p.1 == k
        · have hpk : p.1 = k := by simpa using hp
          subst hpk
          simp [hm]
        · by_cases hk : k ∈ inv <;> simp [countKey, hp, hk]

theorem inSync_repairCache (inv : List String) (c : Cache)
    (hd : ∀ k2, countKey c k2 ≤ 1) : inSync inv (repairCache inv c) := by
  intro k
  unfold repairCache
  rw [countKey_repairFilter, countKey_repairAdd inv c k hd]
  by_cases hm : k ∈ inv
  · simp only [hm, if_true]
    by_cases hc : containsKey c k
    · have h1 := countKey_pos_of_containsKey hc
      have h2 := hd k
      simp only [hc, if_true]
      omega
    · simp [hc, hm]
  · simp [hm]

theorem inSync_add (inv : List String) (c : Cache) (hostname : String)
    (h : inSync inv c) : inSync (invAdd inv hostname) (setItem c hostname ⟨none, none⟩) := by
  intro k
  by_cases hk : k = hostname
  · subst hk
    rw [countKey_setItem_self]
    · have hmem : k ∈ invAdd inv k := by
        unfold invAdd
        split
        · rename_i hc
          simpa [List.elem_iff] using hc
        · simp
      simp [hmem]
    · rw [h k]
      split <;> omega
  · rw [countKey_setItem_other c hostname k _ hk, h k]
    have hmem : (k ∈ invAdd inv hostname) ↔ k ∈ inv := by
      unfold invAdd
      split
      · exact Iff.rfl
      · simp [List.mem_append, hk]
    by_cases hm : k ∈ inv <;> simp [hmem, hm]

theorem inSync_del (inv : List String) (c : Cache) (hostname : String)
    (h : inSync inv c) : inSync (invDel inv hostname) (delItem c hostname) := by
  intro k
  rw [countKey_delItem]
  have hmem : (k ∈ invDel inv hostname) ↔ (k ∈ inv ∧ k ≠ hostname) := by
    unfold invDel
    simp [List.mem_filter]
  by_cases hk : k = hostname
  · subst hk
    simp [hmem]
  · rw [if_neg hk, h k]
    by_cases hm : k ∈ inv <;> simp [hmem, hk, hm]

/-- C4: cache/registry key-set invariant.  (1) The startup repair pass
puts any (dict-like) cache in sync with the host registry; (2) from
states whose caches are in sync, `add_host` keeps both caches in sync
with the registry; (3) likewise `remove_host` (on a registered host —
an unregistered host would raise `KeyError`).  `inSync` states that
every registered host has exactly one cache entry and every
unregistered host has none, so the three key sets coincide. -/
theorem C4_cache_registry_sync :
    (∀ (inv : List String) (c : Cache), (∀ k2, countKey c k2 ≤ 1) →
      inSync inv (repairCache inv c)) ∧
    (∀ (st : OrchState) (hostname : String),
      inSync st.inventory st.inventory_cache → inSync st.inventory st.service_cache →
      inSync (add_host st hostname).inventory (add_host st hostname).inventory_cache ∧
      inSync (add_host st hostname).inventory (add_host st hostname).service_cache) ∧
    (∀ (st : OrchState) (hostname : String), hostname ∈ st.inventory →
      inSync st.inventory st.inventory_cache → inSync st.inventory st.service_cache →
      inSync (remove_host st hostname).inventory (remove_host st hostname).inventory_cache ∧
      inSync (remove_host st hostname).inventory (remove_host st hostname).service_cache) := by
  refine ⟨inSync_repairCache, ?_, ?_⟩
  · intro st hostname h1 h2
    exact ⟨inSync_add _ _ _ h1, inSync_add _ _ _ h2⟩
  · intro st hostname _ h1 h2
    exact ⟨inSync_del _ _ _ h1, inSync_del _ _ _ h2⟩

/-- Witness for C4: a stale one-entry cache repaired against registry
`["test"]`; `add_host "test"` on the empty state; `remove_host "test"`
on the resulting state. -/
theorem C4_cache_registry_sync_witness :
    inSync ["test"] (repairCache ["test"] [("stale", ⟨none, none⟩)]) ∧
    (inSync (add_host ⟨[], [], []⟩ "test").inventory
        (add_host ⟨[], [], []⟩ "test").inventory_cache ∧
      inSync (add_host ⟨[], [], []⟩ "test").inventory
        (add_host ⟨[], [], []⟩ "test").service_cache) ∧
    (inSync (remove_host (add_host ⟨[], [], []⟩ "test") "test").inventory
        (remove_host (add_host ⟨[], [], []⟩ "test") "test").inventory_cache ∧
      inSync (remove_host (add_host ⟨[], [], []⟩ "test") "test").inventory
        (remove_host (add_host ⟨[], [], []⟩ "test") "test").service_cache) := by
  have hd : ∀ k2, countKey [("stale", ⟨none, none⟩)] k2 ≤ 1 := by
    intro k2
    by_cases h2 : ("stale" == k2) <;> simp [countKey, h2]
  have hempty : inSync ([] : List String) ([] : Cache) := by
    intro k
    simp [countKey]
  have hadd := C4_cache_registry_sync.2.1 ⟨[], [], []⟩ "test" hempty hempty
  refine ⟨C4_cache_registry_sync.1 ["test"] _ hd, hadd, ?_⟩
  exact C4_cache_registry_sync.2.2 (add_host ⟨[], [], []⟩ "test") "test"
    (by simp [add_host, invAdd]) hadd.1 hadd.2

/-! ## C5: `upgrade_start` (`cephadm/module.py:1666-1693`) -/

/-- The persisted `upgrade_state` dict: `paused` is an optional key
(`del`eted when cleared, `.get('paused')` is falsy when absent),
modelled as a `Bool`; likewise `error`. -/
structure UpgradeState : Type where
  target_name : String
  target_id : String
  target_version : String
  paused : Bool
  error : Option String
deriving DecidableEq, Repr

/-- Outcome of one `upgrade_start` call: the `self.upgrade_state`
afterwards, whether `_save_upgrade_state` ran (i.e. the state was
persisted to the store), and the returned message or the raised
`OrchestratorError`. -/
structure UpgradeStartOutcome : Type where
  state : Option UpgradeState
  saved : Bool
  result : Except String String
deriving Repr

/-- Python truthiness of an optional string. -/
def truthy : Option String → Bool
  | none => false
  | some str => !(str == "")

/-- Target-name resolution at the top of `upgrade_start`: a version
yields `container_image_base + ':v' + version`, else an explicit
image is the target, else `OrchestratorError`. -/
def resolve_target (image version : Option String) (container_image_base : String) :
    Option String :=
  if truthy version then some (container_image_base ++ ":v" ++ version.getD "")
  else if truthy image then image
  else none

/-- `upgrade_start(image, version)`.  `get_image_id` stands for the
remote `_get_container_image_id` lookup (target id and version). -/
def upgrade_start (st : Option UpgradeState) (image version : Option String)
    (container_image_base : String) (get_image_id : String → String × String) :
    UpgradeStartOutcome :=
  match resolve_target image version container_image_base with
  | none => ⟨st, false, Except.error "must specify either image or version"⟩
  | some target_name =>
    match st with
    | some u =>
        if u.target_name ≠ target_name then
          ⟨some u, false, Except.error ("Upgrade to " ++ u.target_name ++ " (not " ++
            target_name ++ ") already in progress")⟩
        else if u.paused then
          ⟨some { u with paused := false }, true,
            Except.ok ("Resumed upgrade to " ++ u.target_name)⟩
        else
          ⟨some u, false, Except.ok ("Upgrade to " ++ u.target_name ++ " in progress")⟩
    | none =>
        let ids := get_image_id target_name
        ⟨some ⟨target_name, ids.1, ids.2, false, none⟩, true,
          Except.ok ("Initiating upgrade to " ++ (match image with
            | some i => i
            | none => "None") ++ " " ++ ids.1)⟩

/-- C5: at most one active upgrade.  With an upgrade `u` in progress:
calling `upgrade_start` resolving to a *different* target raises an
`OrchestratorError` and neither changes nor persists the
`UpgradeState`; calling it with the *same* target while paused clears
the paused flag, persists the state, and leaves `target_name`,
`target_id` and `target_version` unchanged. -/
theorem C5_at_most_one_active_upgrade (u : UpgradeState) (image version : Option String)
    (base : String) (gid : String → String × String) (tn : String)
    (hres : resolve_target image version base = some tn) :
    (u.target_name ≠ tn →
      upgrade_start (some u) image version base gid =
        ⟨some u, false, Except.error ("Upgrade to " ++ u.target_name ++ " (not " ++
          tn ++ ") already in progress")⟩) ∧
    (u.target_name = tn → u.paused = true →
      upgrade_start (some u) image version base gid =
        ⟨some { u with paused := false }, true,
          Except.ok ("Resumed upgrade to " ++ u.target_name)⟩ ∧
      ∀ u2, (upgrade_start (some u) image version base gid).state = some u2 →
        u2.target_name = u.target_name ∧ u2.target_id = u.target_id ∧
        u2.target_version = u.target_version) := by
  constructor
  · intro hne
    unfold upgrade_start
    rw [hres]
    simp [hne]
  · intro heq hp
    have hstart : upgrade_start (some u) image version base gid =
        ⟨some { u with paused := false }, true,
          Except.ok ("Resumed upgrade to " ++ u.target_name)⟩ := by
      unfold upgrade_start
      rw [hres]
      simp [heq, hp]
    refine ⟨hstart, ?_⟩
    intro u2 h2
    rw [hstart] at h2
    simp only [Option.some.injEq] at h2
    subst h2
    exact ⟨rfl, rfl, rfl⟩

/-- Witness for C5: an in-progress upgrade to `ceph/ceph:v15`;
starting an upgrade to image `other` fails without mutation; starting
`--version 15` (resolving to the same target) while paused resumes. -/
theorem C5_at_most_one_active_upgrade_witness :
    (resolve_target (some "other") none "ceph/ceph" = some "other") ∧
    (("ceph/ceph:v15" : String) ≠ "other") ∧
    (upgrade_start (some ⟨"ceph/ceph:v15", "id1", "15.2.0", true, none⟩)
        (some "other") none "ceph/ceph" (fun _ => ("id2", "15.3.0")) =
      ⟨some ⟨"ceph/ceph:v15", "id1", "15.2.0", true, none⟩, false,
        Except.error "Upgrade to ceph/ceph:v15 (not other) already in progress"⟩) ∧
    (resolve_target none (some "15") "ceph/ceph" = some "ceph/ceph:v15") ∧
    (upgrade_start (some ⟨"ceph/ceph:v15", "id1", "15.2.0", true, none⟩)
        none (some "15") "ceph/ceph" (fun _ => ("id2", "15.3.0")) =
      ⟨some ⟨"ceph/ceph:v15", "id1", "15.2.0", false, none⟩, true,
        Except.ok "Resumed upgrade to ceph/ceph:v15"⟩) :=
  ⟨rfl, by decide,
   (C5_at_most_one_active_upgrade ⟨"ceph/ceph:v15", "id1", "15.2.0", true, none⟩
     (some "other") none "ceph/ceph" (fun _ => ("id2", "15.3.0")) "other" rfl).1
     (by decide),
   rfl,
   ((C5_at_most_one_active_upgrade ⟨"ceph/ceph:v15", "id1", "15.2.0", true, none⟩
     none (some "15") "ceph/ceph" (fun _ => ("id2", "15.3.0")) "ceph/ceph:v15" rfl).2
     rfl rfl).1⟩

/-! ## Reconciliation (`cephadm/module.py`: `_update_service` 1258-1274,
`update_mons` 1302-1341, `_update_mgrs` 1367-1431)

Remote mutation calls (daemon creation and removal; each wraps an SSH
`cephadm deploy` / `rm-daemon` invocation) are recorded in an explicit
trace.  Quoting of names inside the human-readable result strings is
elided. -/

/-- The fields of `orchestrator.ServiceDescription` used by the
reconcilers. -/
structure ServiceDescription : Type where
  service_instance : String
  service_type : String
  nodename : String
deriving DecidableEq, Repr

inductive RemoteCall : Type where
  | removeDaemon : String → String → RemoteCall
  | createMon : String → String → String → RemoteCall
  | createMgr : String → String → RemoteCall
deriving DecidableEq, Repr

/-- Chain result values: a message or a list of messages. -/
inductive RValue : Type where
  | strV : String → RValue
  | listV : List String → RValue
deriving DecidableEq, Repr

/-- Whether a result carries any descriptive message at all: a
nonempty message string, or a nonempty list of messages. -/
def RValue.describes : RValue → Bool
  | RValue.strV str => !(str == "")
  | RValue.listV l => !l.isEmpty

inductive OrchError : Type where
  | runtimeE : String → OrchError
  | notImplementedE : String → OrchError
deriving DecidableEq, Repr

/-- `_remove_daemon` over a batch of `(name, host)` pairs: one remote
`rm-daemon` per pair, results collected in order. -/
def _remove_daemon (args : List (String × String)) : List RemoteCall × RValue :=
  (args.map (fun a => RemoteCall.removeDaemon a.1 a.2),
   RValue.listV (args.map (fun a => "Removed " ++ a.1 ++ " from host " ++ a.2)))

/-- The `count` and logical `name` of a service spec. -/
structure ServiceSpecL : Type where
  count : Nat
  name : String
deriving DecidableEq, Repr

/-- `_update_service(daemon_type, add_func, spec)` continuation body
(`___update_service`), applied to the observed daemon list: remove the
excess from the front of the list, or delegate the shortfall to
`add_func`, or no-op with the empty result. -/
def _update_service (daemons : List ServiceDescription) (spec : ServiceSpecL)
    (add_func : ServiceSpecL → List RemoteCall × RValue) : List RemoteCall × RValue :=
  if spec.count < daemons.length then
    let to_remove := daemons.length - spec.count
    _remove_daemon ((daemons.take to_remove).map
      (fun d => (d.service_type ++ "." ++ d.service_instance, d.nodename)))
  else if daemons.length < spec.count then
    add_func { spec with count := spec.count - daemons.length }
  else ([], RValue.listV [])

/-- A `HostSpec` triple; absent network/name are empty strings (falsy
in Python). -/
structure HostSpecL : Type where
  hostname : String
  network : String
  name : String
deriving DecidableEq, Repr

/-- `update_mons(num, host_specs)`, with the `mon_map` size, the host
registry keys and the observed mon daemons as explicit inputs.
Mirrors the source order: no-op on equal count; refuse removal;
`_require_hosts`; per-host network check; then (in the
`update_mons_with_daemons` continuation) name-collision check,
placement-count check, and finally one `_create_mon` per host spec. -/
def update_mons (num : Nat) (host_specs : List HostSpecL) (num_mons : Nat)
    (inv_cache_keys : List String) (daemons : List ServiceDescription) :
    List RemoteCall × Except OrchError RValue :=
  if num = num_mons then
    ([], Except.ok (RValue.strV "The requested number of monitors exist."))
  else if num < num_mons then
    ([], Except.error (OrchError.notImplementedE "Removing monitors is not supported."))
  else if !(host_specs.all (fun hh => inv_cache_keys.contains hh.hostname)) then
    ([], Except.error (OrchError.runtimeE "Host(s) not registered"))
  else if host_specs.any (fun hh => hh.network == "") then
    ([], Except.error (OrchError.runtimeE "Host is missing a network spec"))
  else if host_specs.any (fun hh =>
      (hh.name != "") && daemons.any (fun d => d.service_instance == hh.name)) then
    ([], Except.error (OrchError.runtimeE "name already exists"))
  else if host_specs.length < num - num_mons then
    ([], Except.error (OrchError.runtimeE ("Error: " ++ toString host_specs.length ++
      " hosts provided, expected " ++ toString (num - num_mons))))
  else
    (host_specs.map (fun hh => RemoteCall.createMon hh.hostname hh.network hh.name),
     Except.ok (RValue.listV (host_specs.map (fun hh =>
       "(Re)deployed mon." ++ (if hh.name != "" then hh.name else hh.hostname) ++
         " on host " ++ hh.hostname))))

/-- First removal pass of `_update_mgrs`: collect unconnected daemons
(front to back) until `num_to_remove` hits zero; returns the picked
`(name, host)` pairs and the remaining count. -/
def pickUnconnected (connected : List String) :
    List ServiceDescription → Nat → List (String × String) × Nat
  | [], n => ([], n)
  | d :: rest, n =>
      if d.service_instance ∈ connected then pickUnconnected connected rest n
      else
        let n2 := n - 1
        if n2 = 0 then ([(d.service_type ++ "." ++ d.service_instance, d.nodename)], 0)
        else
          let r := pickUnconnected connected rest n2
          ((d.service_type ++ "." ++ d.service_instance, d.nodename) :: r.1, r.2)

/-- Second removal pass of `_update_mgrs`: pick *any* daemons from the
front until the count hits zero. -/
def pickAny : List ServiceDescription → Nat → List (String × String)
  | [], _ => []
  | d :: rest, n =>
      let n2 := n - 1
      if n2 = 0 then [(d.service_type ++ "." ++ d.service_instance, d.nodename)]
      else (d.service_type ++ "." ++ d.service_instance, d.nodename) :: pickAny rest n2

/-- `_update_mgrs(num, host_specs, daemons)`: no-op on equal count;
`_require_hosts`; on excess, remove (preferring daemons unconnected to
the `mgr_map`); on shortfall, placement-count check, name-collision
check, then one `_create_mgr` per host spec, with generated names for
unnamed specs (`gen` stands for `get_unique_name`). -/
def _update_mgrs (num : Nat) (host_specs : List HostSpecL)
    (daemons : List ServiceDescription) (inv_cache_keys : List String)
    (active_name : String) (standbys : List String)
    (gen : List ServiceDescription → String) :
    List RemoteCall × Except OrchError RValue :=
  if num = daemons.length then
    ([], Except.ok (RValue.strV "The requested number of managers exist."))
  else if !(host_specs.all (fun hh => inv_cache_keys.contains hh.hostname)) then
    ([], Except.error (OrchError.runtimeE "Host(s) not registered"))
  else if num < daemons.length then
    let connected := (if active_name ≠ "" then [active_name] else []) ++ standbys
    let firstPass := pickUnconnected connected daemons (daemons.length - num)
    let args := firstPass.1 ++ (if 0 < firstPass.2 then pickAny daemons firstPass.2 else [])
    (args.map (fun a => RemoteCall.removeDaemon a.1 a.2),
     Except.ok (RValue.listV (args.map (fun a => "Removed " ++ a.1 ++ " from host " ++ a.2))))
  else if host_specs.length < num - daemons.length then
    ([], Except.error (OrchError.runtimeE ("Error: " ++ toString host_specs.length ++
      " hosts provided, expected " ++ toString (num - daemons.length))))
  else if host_specs.any (fun hh =>
      (hh.name != "") && daemons.any (fun d => d.service_instance == hh.name)) then
    ([], Except.error (OrchError.runtimeE "name already exists"))
  else
    let args := host_specs.map (fun hh =>
      (hh.hostname, if hh.name != "" then hh.name else gen daemons))
    (args.map (fun a => RemoteCall.createMgr a.1 a.2),
     Except.ok (RValue.listV (args.map (fun a =>
       "(Re)deployed mgr." ++ a.2 ++ " on host " ++ a.1))))

/-- Counterexample to C6 as stated: the generic `_update_service`
path (mds/rgw/rbd-mirror), reconciling one observed mds daemon to a
desired count of 1, succeeds but returns the bare empty list `[]` as
its no-op result — a result carrying no descriptive message at all,
unlike the mon/mgr no-op messages. -/
theorem C6_noop_result_counterexample :
    _update_service [⟨"a", "mds", "test"⟩] ⟨1, "fs"⟩ (fun _ => ([], RValue.listV [])) =
      ([], RValue.listV []) ∧
    (_update_service [⟨"a", "mds", "test"⟩] ⟨1, "fs"⟩
      (fun _ => ([], RValue.listV []))).2.describes = false :=
  ⟨rfl, rfl⟩

/-- C6 (amended): reconciliation no-op and idempotence.  When the
observed daemon count equals the desired count, `update_mons`,
`_update_mgrs` and the generic `_update_service` (mds/rgw/rbd-mirror)
are no-ops that succeed immediately with an empty remote-call trace;
the no-op result is the descriptive message "The requested number of
monitors/managers exist." for mons/mgrs but the bare empty result
list for the generic path; hence a second reconciliation to the same
desired count (the observed set now matching it, no external changes)
issues zero remote mutation calls. -/
theorem C6_reconciliation_noop_idempotent :
    (∀ (daemons : List ServiceDescription) (spec : ServiceSpecL)
       (add_func : ServiceSpecL → List RemoteCall × RValue),
      daemons.length = spec.count →
      _update_service daemons spec add_func = ([], RValue.listV [])) ∧
    (∀ (host_specs : List HostSpecL) (num_mons : Nat) (inv_cache_keys : List String)
       (daemons : List ServiceDescription),
      update_mons num_mons host_specs num_mons inv_cache_keys daemons =
        ([], Except.ok (RValue.strV "The requested number of monitors exist."))) ∧
    (∀ (host_specs : List HostSpecL) (daemons : List ServiceDescription)
       (inv_cache_keys : List String) (active_name : String) (standbys : List String)
       (gen : List ServiceDescription → String),
      _update_mgrs daemons.length host_specs daemons inv_cache_keys active_name
          standbys gen =
        ([], Except.ok (RValue.strV "The requested number of managers exist."))) ∧
    (∀ (secondObserved : List ServiceDescription) (spec : ServiceSpecL)
       (add_func : ServiceSpecL → List RemoteCall × RValue),
      secondObserved.length = spec.count →
      (_update_service secondObserved spec add_func).1 = []) := by
  refine ⟨?_, ?_, ?_, ?_⟩
  · intro daemons spec add_func hlen
    unfold _update_service
    rw [hlen]
    simp
  · intro host_specs num_mons inv daemons
    unfold update_mons
    simp
  · intro host_specs daemons inv an sb gen
    unfold _update_mgrs
    simp
  · intro d2 spec add_func hlen
    unfold _update_service
    rw [hlen]
    simp

/-- Witness for C6 on a one-daemon, count-1 state. -/
theorem C6_reconciliation_noop_idempotent_witness :
    (([⟨"a", "mds", "test"⟩] : List ServiceDescription).length = (1 : Nat)) ∧
    (_update_service [⟨"a", "mds", "test"⟩] ⟨1, "fs"⟩ (fun _ => ([], RValue.listV [])) =
      ([], RValue.listV []) ∧
     update_mons 1 [] 1 ["test"] [⟨"a", "mon", "test"⟩] =
      ([], Except.ok (RValue.strV "The requested number of monitors exist.")) ∧
     _update_mgrs 1 [] [⟨"x", "mgr", "test"⟩] ["test"] "x" [] (fun _ => "gen") =
      ([], Except.ok (RValue.strV "The requested number of managers exist.")) ∧
     (_update_service [⟨"a", "mds", "test"⟩] ⟨1, "fs"⟩ (fun _ => ([], RValue.listV []))).1 =
      []) :=
  ⟨rfl,
   C6_reconciliation_noop_idempotent.1 [⟨"a", "mds", "test"⟩] ⟨1, "fs"⟩
     (fun _ => ([], RValue.listV [])) rfl,
   C6_reconciliation_noop_idempotent.2.1 [] 1 ["test"] [⟨"a", "mon", "test"⟩],
   C6_reconciliation_noop_idempotent.2.2.1 [] [⟨"x", "mgr", "test"⟩] ["test"] "x" []
     (fun _ => "gen"),
   C6_reconciliation_noop_idempotent.2.2.2 [⟨"a", "mds", "test"⟩] ⟨1, "fs"⟩
     (fun _ => ([], RValue.listV [])) rfl⟩

/-- C7: insufficient-placement validation.  When scaling up and given
fewer placement entries than `desired - observed`, `_update_mgrs` and
`update_mons` fail with the validation `RuntimeError` embedding the
provided/expected counts, and the remote-call trace is empty — no
create call is issued. -/
theorem C7_insufficient_placement :
    (∀ (num : Nat) (host_specs : List HostSpecL) (daemons : List ServiceDescription)
       (inv_cache_keys : List String) (active_name : String) (standbys : List String)
       (gen : List ServiceDescription → String),
      host_specs.all (fun hh => inv_cache_keys.contains hh.hostname) = true →
      daemons.length < num →
      host_specs.length < num - daemons.length →
      _update_mgrs num host_specs daemons inv_cache_keys active_name standbys gen =
        ([], Except.error (OrchError.runtimeE ("Error: " ++ toString host_specs.length ++
          " hosts provided, expected " ++ toString (num - daemons.length))))) ∧
    (∀ (num : Nat) (host_specs : List HostSpecL) (num_mons : Nat)
       (inv_cache_keys : List String) (daemons : List ServiceDescription),
      num_mons < num →
      host_specs.all (fun hh => inv_cache_keys.contains hh.hostname) = true →
      host_specs.all (fun hh => !(hh.network == "")) = true →
      host_specs.all (fun hh =>
        (hh.name == "") || !(daemons.any (fun d => d.service_instance == hh.name))) = true →
      host_specs.length < num - num_mons →
      update_mons num host_specs num_mons inv_cache_keys daemons =
        ([], Except.error (OrchError.runtimeE ("Error: " ++ toString host_specs.length ++
          " hosts provided, expected " ++ toString (num - num_mons))))) := by
  constructor
  · intro num host_specs daemons inv an sb gen hreg hlt hshort
    have hreg2 : (!(host_specs.all fun hh => inv.contains hh.hostname)) = false := by
      rw [hreg]
      rfl
    unfold _update_mgrs
    rw [if_neg (by omega), if_neg (by rw [hreg2]; simp), if_neg (by omega), if_pos hshort]
  · intro num host_specs num_mons inv daemons hlt hreg hnet hname hshort
    have hreg2 : (!(host_specs.all fun hh => inv.contains hh.hostname)) = false := by
      rw [hreg]
      rfl
    have hnet2 : (host_specs.any fun hh => hh.network == "") = false := by
      rw [List.any_eq_false]
      intro hh hmem
      have := List.all_eq_true.mp hnet hh hmem
      simpa using this
    have hname2 : (host_specs.any fun hh =>
        (hh.name != "") && daemons.any fun d => d.service_instance == hh.name) = false := by
      rw [List.any_eq_false]
      intro hh hmem
      have hx := List.all_eq_true.mp hname hh hmem
      rw [Bool.or_eq_true] at hx
      intro hcontra
      rw [Bool.and_eq_true] at hcontra
      obtain ⟨hc1, hc2⟩ := hcontra
      rcases hx with h1 | h1
      · simp only [bne, h1, Bool.not_true] at hc1
        exact Bool.noConfusion hc1
      · rw [Bool.not_eq_true'] at h1
        rw [h1] at hc2
        exact Bool.noConfusion hc2
    unfold update_mons
    rw [if_neg (by omega), if_neg (by omega), if_neg (by rw [hreg2]; simp),
      if_neg (by rw [hnet2]; simp), if_neg (by rw [hname2]; simp), if_pos hshort]

/-- Witness for C7: two new mgrs/mons requested with one placement entry. -/
theorem C7_insufficient_placement_witness :
    (([(⟨"test", "0.0.0.0", ""⟩ : HostSpecL)].all
        (fun hh => ["test"].contains hh.hostname) = true) ∧
     (0 : Nat) < 2 ∧ ([(⟨"test", "0.0.0.0", ""⟩ : HostSpecL)].length < 2 - 0)) ∧
    (_update_mgrs 2 [⟨"test", "0.0.0.0", ""⟩] [] ["test"] "" [] (fun _ => "gen") =
      ([], Except.error (OrchError.runtimeE "Error: 1 hosts provided, expected 2"))) ∧
    (update_mons 2 [⟨"test", "0.0.0.0", ""⟩] 0 ["test"] [] =
      ([], Except.error (OrchError.runtimeE "Error: 1 hosts provided, expected 2"))) :=
  ⟨⟨by decide, by decide, by decide⟩,
   C7_insufficient_placement.1 2 [⟨"test", "0.0.0.0", ""⟩] [] ["test"] "" []
     (fun _ => "gen") (by decide) (by decide) (by decide),
   C7_insufficient_placement.2 2 [⟨"test", "0.0.0.0", ""⟩] 0 ["test"] []
     (by decide) (by decide) (by decide) (by decide) (by decide)⟩

/-- C10: monitor reconciliation never removes daemons.  For every
requested count strictly below the current monitor count,
`update_mons` fails with `NotImplementedError` ("Removing monitors is
not supported.") and its remote-call trace is empty — the check
precedes every remote call; by contrast the generic reconciliation
path removes the excess daemons for other service types (its trace is
the nonempty list of `rm-daemon` calls for the first
`observed - desired` daemons). -/
theorem C10_update_mons_never_removes :
    (∀ (num : Nat) (host_specs : List HostSpecL) (num_mons : Nat)
       (inv_cache_keys : List String) (daemons : List ServiceDescription),
      num < num_mons →
      update_mons num host_specs num_mons inv_cache_keys daemons =
        ([], Except.error (OrchError.notImplementedE
          "Removing monitors is not supported."))) ∧
    (∀ (daemons : List ServiceDescription) (spec : ServiceSpecL)
       (add_func : ServiceSpecL → List RemoteCall × RValue),
      spec.count < daemons.length →
      (_update_service daemons spec add_func).1 =
        (daemons.take (daemons.length - spec.count)).map
          (fun d => RemoteCall.removeDaemon
            (d.service_type ++ "." ++ d.service_instance) d.nodename) ∧
      (_update_service daemons spec add_func).1 ≠ []) := by
  constructor
  · intro num host_specs num_mons inv daemons hlt
    unfold update_mons
    rw [if_neg (by omega), if_pos hlt]
  · intro daemons spec add_func hlt
    have hres : (_update_service daemons spec add_func).1 =
        (daemons.take (daemons.length - spec.count)).map
          (fun d => RemoteCall.removeDaemon
            (d.service_type ++ "." ++ d.service_instance) d.nodename) := by
      unfold _update_service _remove_daemon
      rw [if_pos hlt]
      simp [List.map_map]
      rfl
    refine ⟨hres, ?_⟩
    rw [hres]
    have htake : daemons.take (daemons.length - spec.count) ≠ [] := by
      cases daemons with
      | nil => simp at hlt
      | cons d rest =>
          have : 0 < (d :: rest).length - spec.count := by
            simp at hlt ⊢
            omega
          cases hn : (d :: rest).length - spec.count with
          | zero => omega
          | succ m => simp [List.take]
    simpa using htake

/-- Witness for C10: one mon requested with two present; an mds spec
of count 1 against two observed mds daemons. -/
theorem C10_update_mons_never_removes_witness :
    ((1 : Nat) < 2) ∧
    (update_mons 1 [] 2 ["test"] [] =
      ([], Except.error (OrchError.notImplementedE
        "Removing monitors is not supported."))) ∧
    ((_update_service [⟨"a", "mds", "h1"⟩, ⟨"b", "mds", "h2"⟩] ⟨1, "fs"⟩
        (fun _ => ([], RValue.listV []))).1 =
      [RemoteCall.removeDaemon "mds.a" "h1"] ∧
     (_update_service [⟨"a", "mds", "h1"⟩, ⟨"b", "mds", "h2"⟩] ⟨1, "fs"⟩
        (fun _ => ([], RValue.listV []))).1 ≠ []) :=
  ⟨by decide,
   C10_update_mons_never_removes.1 1 [] 2 ["test"] [] (by decide),
   (by
     have := C10_update_mons_never_removes.2
       [⟨"a", "mds", "h1"⟩, ⟨"b", "mds", "h2"⟩] ⟨1, "fs"⟩
       (fun _ => ([], RValue.listV [])) (by decide)
     exact ⟨by rw [this.1]; rfl, this.2⟩)⟩

/-! ## C9: `_run_cephadm` error surfacing (`cephadm/module.py:759-816`) -/

/-- The argument vector built by `_run_cephadm`:
`[--image, <image>, <command>] ++ (--fsid <id> unless suppressed) ++ args`. -/
def cephadmArgs (img command : String) (no_fsid : Bool) (fsid : String)
    (args : List String) : List String :=
  ["--image", img, command] ++ (if no_fsid then [] else ["--fsid", fsid]) ++ args

/-- Image resolution: an explicit override wins, otherwise the
configured `container_image` for the entity. -/
def imageFor (image : Option String) (resolved_image : String) : String :=
  match image with
  | some i => i
  | none => resolved_image

/-- `_run_cephadm(host, entity, command, args, ...)`: build the
argument vector, run the remote process (`exec`, standing for the
`remoto` execution of the packaged cephadm script over the
connection), and either tolerate a nonzero exit code (`error_ok`) or
raise a `RuntimeError` embedding the code and the captured stderr.
Returns `(out, err, code)` when not raising. -/
def _run_cephadm (resolved_image : String) (image : Option String) (command : String)
    (args : List String) (no_fsid : Bool) (fsid : String) (error_ok : Bool)
    (exec2 : List String → List String × List String × Nat) :
    Except String (List String × List String × Nat) :=
  let final_args := cephadmArgs (imageFor image resolved_image) command no_fsid fsid args
  let r := exec2 final_args
  if r.2.2 ≠ 0 ∧ ¬ error_ok then
    Except.error ("cephadm exited with an error code: " ++ toString r.2.2 ++
      ", stderr:" ++ String.intercalate "\n" r.2.1)
  else Except.ok r

/-- C9: remote execution error surfacing.  If the remote process exits
nonzero and `error_ok` is not set, `_run_cephadm` fails with the
`RuntimeError` embedding the exit code and the newline-joined captured
stderr; with `error_ok` set, the same execution returns the output,
stderr and exit code instead of raising. -/
theorem C9_remote_error_surfacing (resolved_image : String) (image : Option String)
    (command : String) (args : List String) (no_fsid : Bool) (fsid : String)
    (exec2 : List String → List String × List String × Nat)
    (out err : List String) (code : Nat)
    (hexec : exec2 (cephadmArgs (imageFor image resolved_image) command no_fsid fsid args) =
      (out, err, code))
    (hcode : code ≠ 0) :
    _run_cephadm resolved_image image command args no_fsid fsid false exec2 =
      Except.error ("cephadm exited with an error code: " ++ toString code ++
        ", stderr:" ++ String.intercalate "\n" err) ∧
    _run_cephadm resolved_image image command args no_fsid fsid true exec2 =
      Except.ok (out, err, code) := by
  constructor
  · unfold _run_cephadm
    simp [hexec, hcode]
  · unfold _run_cephadm
    simp [hexec]

/-- Witness for C9: a remote process exiting 1 with one stderr line. -/
theorem C9_remote_error_surfacing_witness :
    ((fun _ : List String => (["ok"], ["Error ENOENT"], 1)) (cephadmArgs
        (imageFor none "ceph/ceph:v15") "deploy" false "fsid0" ["--name", "mon.a"]) =
      (["ok"], ["Error ENOENT"], 1)) ∧
    ((1 : Nat) ≠ 0) ∧
    (_run_cephadm "ceph/ceph:v15" none "deploy" ["--name", "mon.a"] false "fsid0" false
        (fun _ => (["ok"], ["Error ENOENT"], 1)) =
      Except.error ("cephadm exited with an error code: 1, stderr:Error ENOENT") ∧
     _run_cephadm "ceph/ceph:v15" none "deploy" ["--name", "mon.a"] false "fsid0" true
        (fun _ => (["ok"], ["Error ENOENT"], 1)) =
      Except.ok (["ok"], ["Error ENOENT"], 1)) :=
  ⟨rfl, by decide,
   C9_remote_error_surfacing "ceph/ceph:v15" none "deploy" ["--name", "mon.a"] false
     "fsid0" (fun _ => (["ok"], ["Error ENOENT"], 1)) ["ok"] ["Error ENOENT"] 1 rfl
     (by decide)⟩

/-! ## C8: `get_unique_name` and batch mds creation
(`cephadm/module.py:511-530`, `_add_mds` 1438-1454)

`random.choice(string.ascii_lowercase)` is modelled by an explicit
supply of 6-tuples of letter indices: each `Choice6` is one candidate
suffix the random generator would produce, consumed in order. -/

structure Choice6 : Type where
  c1 : Fin 26
  c2 : Fin 26
  c3 : Fin 26
  c4 : Fin 26
  c5 : Fin 26
  c6 : Fin 26
deriving DecidableEq, Repr

def lowChar (i : Fin 26) : Char := Char.ofNat (97 + i.val)

/-- A 6-character lowercase suffix built from one supply element. -/
def suffix6 (r : Choice6) : String :=
  String.mk [lowChar r.c1, lowChar r.c2, lowChar r.c3, lowChar r.c4, lowChar r.c5,
    lowChar r.c6]

/-- One candidate name: the logical service name and a dot (when the
name is nonempty), then the random suffix. -/
def mkCandidate (pfx : String) (r : Choice6) : String :=
  (if pfx = "" then "" else pfx ++ ".") ++ suffix6 r

/-- The retry loop of `get_unique_name`: draw candidates until one
does not collide with any `service_instance` in `existing`; returns
the name and the unconsumed supply (`none` when the supply runs out —
in Python the loop would keep drawing). -/
def genName (existing : List ServiceDescription) (pfx : String) :
    List Choice6 → Option (String × List Choice6)
  | [] => none
  | r :: rs =>
      let name := mkCandidate pfx r
      if existing.any (fun d => d.service_instance == name) then genName existing pfx rs
      else some (name, rs)

/-- `get_unique_name(existing, prefix, forcename)`: an explicit
forcename is checked against the existing instances (collision raises
`RuntimeError`, here `none`); otherwise names are generated. -/
def get_unique_name (existing : List ServiceDescription) (pfx : String)
    (forcename : String) (supply : List Choice6) : Option (String × List Choice6) :=
  if forcename ≠ "" then
    if existing.any (fun d => d.service_instance == forcename) then none
    else some (forcename, supply)
  else genName existing pfx supply

/-- The `_add_mds` batch loop: for each placement node (host, optional
explicit name) while fewer than `cnt` daemons were added, pick a
unique name against the *incrementally extended* daemon list, record
the `(mds_id, host)` pair, and append the new daemon so later
iterations see it. -/
def _add_mds_go (daemons : List ServiceDescription) (specName : String)
    (cnt numAdded : Nat) (supply : List Choice6) :
    List (String × String) → Option (List (String × String) × List ServiceDescription)
  | [] => some ([], daemons)
  | (host, nm) :: rest =>
      if cnt ≤ numAdded then some ([], daemons)
      else
        match get_unique_name daemons specName nm supply with
        | none => none
        | some (mds_id, supply2) =>
            match _add_mds_go (daemons ++ [⟨mds_id, "mds", host⟩]) specName cnt
                (numAdded + 1) supply2 rest with
            | none => none
            | some (args, ds) => some ((mds_id, host) :: args, ds)

theorem genName_spec (existing : List ServiceDescription) (pfx : String)
    (supply rs : List Choice6) (name : String)
    (h : genName existing pfx supply = some (name, rs)) :
    (∀ d ∈ existing, d.service_instance ≠ name) ∧
    (∃ r ∈ supply, name = mkCandidate pfx r) ∧
    (∀ x ∈ rs, x ∈ supply) := by
  induction supply generalizing rs with
  | nil => simp [genName] at h
  | cons r rest ih =>
      rw [genName] at h
      by_cases hc : (existing.any fun d => d.service_instance == mkCandidate pfx r) = true
      · rw [if_pos hc] at h
        obtain ⟨h1, h2, h3⟩ := ih rs h
        exact ⟨h1, by
          obtain ⟨r2, hr2, he⟩ := h2
          exact ⟨r2, List.mem_cons_of_mem _ hr2, he⟩,
          fun x hx => List.mem_cons_of_mem _ (h3 x hx)⟩
      · rw [if_neg hc] at h
        simp only [Option.some.injEq, Prod.mk.injEq] at h
        obtain ⟨hn, hrs⟩ := h
        subst hn
        subst hrs
        refine ⟨?_, ⟨r, List.mem_cons_self _ _, rfl⟩, fun x hx => List.mem_cons_of_mem _ hx⟩
        intro d hd he
        apply hc
        rw [List.any_eq_true]
        exact ⟨d, hd, by simp [he]⟩

theorem add_mds_go_spec (nodes : List (String × String)) :
    ∀ (daemons : List ServiceDescription) (specName : String) (cnt numAdded : Nat)
      (supply : List Choice6) (args : List (String × String))
      (ds : List ServiceDescription),
      (∀ nd ∈ nodes, nd.2 = "") →
      _add_mds_go daemons specName cnt numAdded supply nodes = some (args, ds) →
      (∀ a ∈ args, (∀ d ∈ daemons, a.1 ≠ d.service_instance) ∧
        ∃ r ∈ supply, a.1 = mkCandidate specName r) ∧
      (args.map Prod.fst).Nodup := by
  induction nodes with
  | nil =>
      intro daemons specName cnt numAdded supply args ds _ h
      simp only [_add_mds_go, Option.some.injEq, Prod.mk.injEq] at h
      obtain ⟨h1, _⟩ := h
      subst h1
      simp
  | cons nd rest ih =>
      intro daemons specName cnt numAdded supply args ds hunnamed h
      obtain ⟨host, nm⟩ := nd
      have hnm : nm = "" := hunnamed _ (List.mem_cons_self _ _)
      subst hnm
      rw [_add_mds_go] at h
      by_cases hcnt : cnt ≤ numAdded
      · rw [if_pos hcnt] at h
        simp only [Option.some.injEq, Prod.mk.injEq] at h
        obtain ⟨h1, _⟩ := h
        subst h1
        simp
      · rw [if_neg hcnt] at h
        rcases hg : get_unique_name daemons specName "" supply with _ | ⟨mds_id, supply2⟩
        · rw [hg] at h
          exact absurd h (by simp)
        · rw [hg] at h
          dsimp only at h
          rcases hrec : _add_mds_go (daemons ++ [⟨mds_id, "mds", host⟩]) specName cnt
              (numAdded + 1) supply2 rest with _ | ⟨args2, ds2⟩
          · rw [hrec] at h
            exact absurd h (by simp)
          · rw [hrec] at h
            simp only [Option.some.injEq, Prod.mk.injEq] at h
            obtain ⟨h1, _⟩ := h
            subst h1
            have hgen : genName daemons specName supply = some (mds_id, supply2) := by
              simpa [get_unique_name] using hg
            obtain ⟨hfresh, hfrom, hsub⟩ := genName_spec daemons specName supply supply2
              mds_id hgen
            have hrest := ih (daemons ++ [⟨mds_id, "mds", host⟩]) specName cnt
              (numAdded + 1) supply2 args2 ds2
              (fun x hx => hunnamed x (List.mem_cons_of_mem _ hx)) hrec
            constructor
            · intro a ha
              rcases List.mem_cons.mp ha with rfl | ha
              · exact ⟨fun d hd he => hfresh d hd he.symm, hfrom⟩
              · obtain ⟨hf2, r2, hr2, he2⟩ := hrest.1 a ha
                exact ⟨fun d hd => hf2 d (List.mem_append_left _ hd), r2, hsub r2 hr2, he2⟩
            · simp only [List.map_cons, List.nodup_cons]
              refine ⟨?_, hrest.2⟩
              intro hmem
              simp only [List.mem_map] at hmem
              obtain ⟨a, ha, hae⟩ := hmem
              have := (hrest.1 a ha).1 ⟨mds_id, "mds", host⟩
                (List.mem_append_right _ (List.mem_cons_self _ _))
              exact this (by simpa using hae)

/-- C8: batch name generation uniqueness.  When a batch of mds
placements with no explicit names is processed by `_add_mds`, every
generated name consists of an optional `specName.` prefix followed by
a 6-character lowercase suffix drawn from the random supply
(regenerated on collision), the resulting names are pairwise distinct,
and none collides with a pre-existing instance name. -/
theorem C8_batch_name_uniqueness (daemons : List ServiceDescription) (specName : String)
    (cnt : Nat) (supply : List Choice6) (nodes : List (String × String))
    (args : List (String × String)) (ds : List ServiceDescription)
    (hunnamed : ∀ nd ∈ nodes, nd.2 = "")
    (hrun : _add_mds_go daemons specName cnt 0 supply nodes = some (args, ds)) :
    (args.map Prod.fst).Nodup ∧
    (∀ a ∈ args, ∀ d ∈ daemons, a.1 ≠ d.service_instance) ∧
    (∀ a ∈ args, ∃ r ∈ supply, a.1 = mkCandidate specName r) ∧
    (∀ r : Choice6, (suffix6 r).length = 6 ∧
      ∀ ch ∈ (suffix6 r).data, 97 ≤ ch.toNat ∧ ch.toNat ≤ 122) := by
  obtain ⟨h1, h2⟩ := add_mds_go_spec nodes daemons specName cnt 0 supply args ds
    hunnamed hrun
  refine ⟨h2, fun a ha => (h1 a ha).1, fun a ha => (h1 a ha).2, ?_⟩
  intro r
  constructor
  · rfl
  · have hchar : ∀ i : Fin 26, (lowChar i).toNat = 97 + i.val := by decide
    intro ch hch
    simp only [suffix6, List.mem_cons, List.not_mem_nil, or_false] at hch
    rcases hch with rfl | rfl | rfl | rfl | rfl | rfl
    · rw [hchar r.c1]
      have := r.c1.isLt
      omega
    · rw [hchar r.c2]
      have := r.c2.isLt
      omega
    · rw [hchar r.c3]
      have := r.c3.isLt
      omega
    · rw [hchar r.c4]
      have := r.c4.isLt
      omega
    · rw [hchar r.c5]
      have := r.c5.isLt
      omega
    · rw [hchar r.c6]
      have := r.c6.isLt
      omega

/-- Witness for C8: one pre-existing daemon `myfs.aaaaaa`; a batch of
two unnamed placements; the first random draw collides and is
regenerated. -/
theorem C8_batch_name_uniqueness_witness :
    (∀ nd ∈ ([("h1", ""), ("h2", "")] : List (String × String)), nd.2 = "") ∧
    (_add_mds_go [⟨"myfs.aaaaaa", "mds", "h0"⟩] "myfs" 2 0
        [⟨0, 0, 0, 0, 0, 0⟩, ⟨1, 0, 0, 0, 0, 0⟩, ⟨2, 0, 0, 0, 0, 0⟩]
        [("h1", ""), ("h2", "")] =
      some ([("myfs.baaaaa", "h1"), ("myfs.caaaaa", "h2")],
        [⟨"myfs.aaaaaa", "mds", "h0"⟩, ⟨"myfs.baaaaa", "mds", "h1"⟩,
         ⟨"myfs.caaaaa", "mds", "h2"⟩])) ∧
    ((([("myfs.baaaaa", "h1"), ("myfs.caaaaa", "h2")] :
        List (String × String)).map Prod.fst).Nodup ∧
     (∀ a ∈ ([("myfs.baaaaa", "h1"), ("myfs.caaaaa", "h2")] : List (String × String)),
       ∀ d ∈ ([⟨"myfs.aaaaaa", "mds", "h0"⟩] : List ServiceDescription),
         a.1 ≠ d.service_instance) ∧
     (∀ a ∈ ([("myfs.baaaaa", "h1"), ("myfs.caaaaa", "h2")] : List (String × String)),
       ∃ r ∈ ([⟨0, 0, 0, 0, 0, 0⟩, ⟨1, 0, 0, 0, 0, 0⟩, ⟨2, 0, 0, 0, 0, 0⟩] :
         List Choice6), a.1 = mkCandidate "myfs" r) ∧
     (∀ r : Choice6, (suffix6 r).length = 6 ∧
       ∀ ch ∈ (suffix6 r).data, 97 ≤ ch.toNat ∧ ch.toNat ≤ 122)) :=
  ⟨by decide, by decide,
   C8_batch_name_uniqueness [⟨"myfs.aaaaaa", "mds", "h0"⟩] "myfs" 2
     [⟨0, 0, 0, 0, 0, 0⟩, ⟨1, 0, 0, 0, 0, 0⟩, ⟨2, 0, 0, 0, 0, 0⟩]
     [("h1", ""), ("h2", "")]
     [("myfs.baaaaa", "h1"), ("myfs.caaaaa", "h2")]
     [⟨"myfs.aaaaaa", "mds", "h0"⟩, ⟨"myfs.baaaaa", "mds", "h1"⟩,
      ⟨"myfs.caaaaa", "mds", "h2"⟩]
     (by decide) (by decide)⟩

end CephOrch
